import Mathlib

set_option autoImplicit false
set_option maxRecDepth 10000

/-!  Shallow embedding of the `authz-engine` permission service
     (`src/core/permission.service.ts`).

     JavaScript `Map<string, Set<string>>` is modelled as an association list
     `PMap := List (String × List String)`: `Map.get` is first-match lookup,
     `Map.set` of a fresh key appends, and `Set.add` is insert-if-absent
     (JS appends, we prepend; only membership, counts and key structure are
     observable to the claims).  JS `Set<string>` used for the permission
     catalog is a duplicate-free list in insertion order (`addSet`).
     A missing optional `roles` object behaves exactly like an empty one in
     every code path, so `roles` is a plain (possibly empty) list; a missing
     `hierarchy` is observably different from an empty one, so it stays an
     `Option`.  Thrown `Error`s become `Except String`. -/

abbrev PMap := List (String × List String)

def pget : PMap → String → Option (List String)
  | [], _ => none
  | (k, v) :: rest, a => if k = a then some v else pget rest a

def pgetD (m : PMap) (a : String) : List String := (pget m a).getD []

def pkey (m : PMap) (a : String) : Prop := (pget m a).isSome = true

def phas (m : PMap) (a b : String) : Prop := b ∈ pgetD m a

instance (m : PMap) (a b : String) : Decidable (phas m a b) :=
  inferInstanceAs (Decidable (b ∈ pgetD m a))

instance (m : PMap) (a : String) : Decidable (pkey m a) :=
  inferInstanceAs (Decidable ((pget m a).isSome = true))

/-- `set.add` on the value set stored at an existing key `a`; a no-op when the
key is absent (this is the `map.get(a)?.add(b)` pattern of the source). -/
def pAdd : PMap → String → String → PMap
  | [], _, _ => []
  | (k, vs) :: rest, a, b =>
    if k = a then (k, vs.insert b) :: rest else (k, vs) :: pAdd rest a b

/-- `if (!map.has(a)) map.set(a, new Set())`. -/
def pEnsure (m : PMap) (a : String) : PMap :=
  if (pget m a).isSome then m else m ++ [(a, [])]

/-- JS `Set` insertion (insertion-ordered, duplicate-free). -/
def addSet (l : List String) (x : String) : List String :=
  if x ∈ l then l else l ++ [x]

structure PermissionGraph where
  grants : PMap
  grantedBy : PMap
deriving DecidableEq

structure Role where
  id : String
  name : String
  permissions : List String
  inherits : List String
  description : Option String
deriving DecidableEq

structure RBACConfig where
  modules : List (String × List String)
  roles : List (String × Role)
  hierarchy : Option (List (String × List String))
deriving DecidableEq

/-- The default CRUD hierarchy from the `PermissionService` constructor. -/
def defaultHierarchy : List (String × List String) :=
  [("delete", ["update", "create", "read"]),
   ("update", ["create", "read"]),
   ("create", ["read"]),
   ("read", [])]

/-- `this.ACTION_HIERARCHY`. -/
def effHierarchy (cfg : RBACConfig) : List (String × List String) :=
  match cfg.hierarchy with
  | some h => h
  | none => defaultHierarchy

/-- `this.ACTIONS` (`Object.keys(config.hierarchy)` or the hardcoded list). -/
def effActions (cfg : RBACConfig) : List String :=
  match cfg.hierarchy with
  | some h => h.map Prod.fst
  | none => ["delete", "update", "create", "read"]

/-- Catalog contribution of one module entry (wildcard, module-level and
resource-level permissions). -/
def genModuleSet (actions : List String) (s : List String)
    (m : String × List String) : List String :=
  let s := addSet s (m.1 ++ ":*")
  let s := actions.foldl (fun s a => addSet s (m.1 ++ ":" ++ a)) s
  m.2.foldl (fun s r =>
    let s := addSet s (m.1 ++ "." ++ r ++ ":*")
    actions.foldl (fun s a => addSet s (m.1 ++ "." ++ r ++ ":" ++ a)) s) s

/-- `generateAllPermissions` (the catalog). -/
def generateAllPermissions (actions : List String) (cfg : RBACConfig) : List String :=
  let s := actions.foldl (fun s a => addSet s ("*:" ++ a)) []
  let s := cfg.modules.foldl (genModuleSet actions) s
  cfg.roles.foldl (fun s rr => addSet s ("role:" ++ rr.1)) s

/-- The `addGrant` closure inside `buildPermissionGraph`. -/
def addGrant (g : PermissionGraph) (grantor grantee : String) : PermissionGraph :=
  { grants := pAdd (pEnsure g.grants grantor) grantor grantee,
    grantedBy := pAdd (pEnsure g.grantedBy grantee) grantee grantor }

/-- The `applyHierarchy` closure inside `buildPermissionGraph`. -/
def applyHierarchy (hier : List (String × List String)) (actions : List String)
    (g : PermissionGraph) (scope : String) : PermissionGraph :=
  let g := hier.foldl (fun g e =>
    e.2.foldl (fun g ia => addGrant g (scope ++ ":" ++ e.1) (scope ++ ":" ++ ia)) g) g
  actions.foldl (fun g a => addGrant g (scope ++ ":*") (scope ++ ":" ++ a)) g

/-- Direct edges contributed by one module entry: its own hierarchy scope,
each resource scope, and the module-to-resource cascades. -/
def addModuleEdges (hier : List (String × List String)) (actions : List String)
    (g : PermissionGraph) (m : String × List String) : PermissionGraph :=
  let g := applyHierarchy hier actions g m.1
  m.2.foldl (fun g r =>
    let rn := m.1 ++ "." ++ r
    let g := applyHierarchy hier actions g rn
    let g := actions.foldl (fun g a => addGrant g (m.1 ++ ":" ++ a) (rn ++ ":" ++ a)) g
    addGrant g (m.1 ++ ":*") (rn ++ ":*")) g

/-- Direct edges contributed by one role entry: its granted permissions and
its inherited parent roles. -/
def addRoleEdges (g : PermissionGraph) (rr : String × Role) : PermissionGraph :=
  let rn := "role:" ++ rr.1
  let g := rr.2.permissions.foldl (fun g p => addGrant g rn p) g
  rr.2.inherits.foldl (fun g par => addGrant g rn ("role:" ++ par)) g

/-- `buildPermissionGraph`. -/
def buildPermissionGraph (actions : List String) (hier : List (String × List String))
    (cfg : RBACConfig) : PermissionGraph :=
  let g := applyHierarchy hier actions ⟨[], []⟩ "*"
  let g := cfg.modules.foldl (addModuleEdges hier actions) g
  let g := actions.foldl (fun g a =>
    cfg.modules.foldl (fun g m => addGrant g ("*:" ++ a) (m.1 ++ ":" ++ a)) g) g
  cfg.roles.foldl addRoleEdges g

def invalidRoleRefMsg (permission roleId : String) : String :=
  "Invalid role reference '" ++ permission ++ "' in role '" ++ roleId ++
    "'. Role does not exist."

def invalidPermissionMsg (permission roleId : String) : String :=
  "Invalid permission '" ++ permission ++ "' found in role '" ++ roleId ++
    "'. This permission does not exist in the configured modules or hierarchy."

def inheritMsg (roleId inheritedRole : String) : String :=
  "Role '" ++ roleId ++ "' inherits from non-existent role '" ++ inheritedRole ++ "'."

/-- Character-list prefix test: the JS `string.startsWith(pre)` used by the
validator and by `hasPermission` auto-qualification, modelled over the
character sequence of the string. -/
def listStarts : List Char → List Char → Bool
  | [], _ => true
  | _ :: _, [] => false
  | p :: ps, c :: cs => p == c && listStarts ps cs

def strStarts (s pre : String) : Bool := listStarts pre.data s.data

/-- The permission half of `validateRolePermissions` for one role. -/
def validatePermList (catalog : List String) (roleId : String) :
    List String → Except String Unit
  | [] => .ok ()
  | p :: ps =>
    if strStarts p "role:" = true then
      if p ∈ catalog then validatePermList catalog roleId ps
      else .error (invalidRoleRefMsg p roleId)
    else
      if p ∈ catalog then validatePermList catalog roleId ps
      else .error (invalidPermissionMsg p roleId)

/-- The inherits half of `validateRolePermissions` for one role. -/
def validateInheritList (catalog : List String) (roleId : String) :
    List String → Except String Unit
  | [] => .ok ()
  | par :: ps =>
    if ("role:" ++ par) ∈ catalog then validateInheritList catalog roleId ps
    else .error (inheritMsg roleId par)

/-- `validateRolePermissions` over the whole role table. -/
def validateRoles (catalog : List String) : List (String × Role) → Except String Unit
  | [] => .ok ()
  | (roleId, role) :: rest =>
    match validatePermList catalog roleId role.permissions with
    | .error e => .error e
    | .ok () =>
      match validateInheritList catalog roleId role.inherits with
      | .error e => .error e
      | .ok () => validateRoles catalog rest

/-- Fuel-exhaustion sentinel of the embedded DFS; `dfsFuel` is proved large
enough that it never escapes `detectCircularDependencies`. -/
def fuelMsg : String := "dfs fuel exhausted"

def circularMsg (node : String) : String :=
  "Circular dependency detected involving node: " ++ node

/-- The recursive `check` closure of `detectCircularDependencies`; `visited`
persists, `stack` is the active path (innermost first).  Fuel only bounds the
recursion depth, which the source bounds by the number of distinct nodes. -/
def checkNode (g : PermissionGraph) :
    Nat → List String → List String → String → Except String (List String)
  | 0, _, _, _ => .error fuelMsg
  | fuel + 1, visited, stack, node =>
    if node ∈ stack then .error (circularMsg node)
    else if node ∈ visited then .ok visited
    else (pgetD g.grants node).foldlM
      (fun v t => checkNode g fuel v (node :: stack) t) (node :: visited)

/-- Sequential `check` over a list of start nodes, threading `visited`. -/
def checkList (g : PermissionGraph) (fuel : Nat) (stack : List String)
    (visited : List String) (nodes : List String) : Except String (List String) :=
  nodes.foldlM (fun v t => checkNode g fuel v stack t) visited

/-- Every node the DFS can ever touch: the start nodes plus every grantee. -/
def dfsUniverse (g : PermissionGraph) (nodes : List String) : List String :=
  nodes ++ (g.grants.map Prod.snd).flatten

def dfsFuel (g : PermissionGraph) (nodes : List String) : Nat :=
  (dfsUniverse g nodes).length + 1

/-- `detectCircularDependencies` (the loop over `this.allPermissions`). -/
def detectCircularDependencies (g : PermissionGraph) (nodes : List String) :
    Except String Unit :=
  match checkList g (dfsFuel g nodes) [] [] nodes with
  | .ok _ => .ok ()
  | .error e => .error e

/-- One conditional edge insertion of the Floyd–Warshall inner loop:
`grants.get(i)?.add(j); grantedBy.get(j)?.add(i)`. -/
def addClosureEdge (g : PermissionGraph) (i j : String) : PermissionGraph :=
  { grants := pAdd g.grants i j, grantedBy := pAdd g.grantedBy j i }

/-- Innermost loop of `applyFloydWarshallTransitiveClosure` (over `j`). -/
def fwJ (g : PermissionGraph) (i k : String) : List String → PermissionGraph
  | [] => g
  | j :: js => fwJ (if phas g.grants k j then addClosureEdge g i j else g) i k js

/-- Middle loop (over `i`). -/
def fwI (nodes : List String) (k : String) (g : PermissionGraph) :
    List String → PermissionGraph
  | [] => g
  | i :: rest => fwI nodes k (if phas g.grants i k then fwJ g i k nodes else g) rest

/-- Outer loop (over the intermediate node `k`). -/
def fwK (nodes : List String) (g : PermissionGraph) : List String → PermissionGraph
  | [] => g
  | k :: ks => fwK nodes (fwI nodes k g nodes) ks

/-- `applyFloydWarshallTransitiveClosure` over the catalog snapshot. -/
def applyFloydWarshall (nodes : List String) (g : PermissionGraph) : PermissionGraph :=
  fwK nodes g nodes

structure PermissionService where
  config : RBACConfig
  actions : List String
  hierarchy : List (String × List String)
  allPermissions : List String
  graph : PermissionGraph
deriving DecidableEq

/-- The catalog the constructor computes for a configuration. -/
def catalogOf (cfg : RBACConfig) : List String :=
  generateAllPermissions (effActions cfg) cfg

/-- The direct (pre-closure) graph the constructor computes. -/
def graphOf (cfg : RBACConfig) : PermissionGraph :=
  buildPermissionGraph (effActions cfg) (effHierarchy cfg) cfg

/-- The `PermissionService` constructor: catalog, validation, direct graph,
cycle detection, transitive closure; any stage failing aborts construction. -/
def build (cfg : RBACConfig) : Except String PermissionService :=
  match validateRoles (catalogOf cfg) cfg.roles with
  | .error e => .error e
  | .ok () =>
    match detectCircularDependencies (graphOf cfg) (catalogOf cfg) with
    | .error e => .error e
    | .ok () => .ok ⟨cfg, effActions cfg, effHierarchy cfg, catalogOf cfg,
        applyFloydWarshall (catalogOf cfg) (graphOf cfg)⟩

def roleGet : List (String × Role) → String → Option Role
  | [], _ => none
  | (k, r) :: rest, a => if k = a then some r else roleGet rest a

/-- The auto-prefixing step at the top of the `hasPermission` loop:
`if (this.config.roles && this.config.roles[userPerm] && !userPerm.startsWith('role:'))`. -/
def autoQualify (s : PermissionService) (p : String) : String :=
  if (roleGet s.config.roles p).isSome = true ∧ strStarts p "role:" = false
  then "role:" ++ p else p

/-- `hasPermission`. -/
def hasPermission (s : PermissionService) (userPermissions : List String)
    (required : String) : Bool :=
  userPermissions.any (fun up =>
    let q := autoQualify s up
    q == required || decide (phas s.graph.grants q required))

/-- `getEffectivePermissions`. -/
def getEffectivePermissions (s : PermissionService) (userPermissions : List String) :
    List String :=
  userPermissions.foldl
    (fun eff up => (pgetD s.graph.grants up).foldl addSet (addSet eff up)) []

/-- `whoGrantsPermission`. -/
def whoGrantsPermission (s : PermissionService) (p : String) : List String :=
  let grantors := pgetD s.graph.grantedBy p
  if p ∈ s.allPermissions then grantors.insert p else grantors

/-- `whatDoesPermissionGrant`. -/
def whatDoesPermissionGrant (s : PermissionService) (p : String) : List String :=
  pgetD s.graph.grants p

structure RBACStats where
  totalPermissions : Nat
  grantRelationships : Nat
  modules : Nat
  resources : Nat
  actions : Nat
deriving DecidableEq

/-- `getStats`. -/
def getStats (s : PermissionService) : RBACStats :=
  { totalPermissions := s.allPermissions.length,
    grantRelationships := s.graph.grants.foldl (fun n e => n + e.2.length) 0,
    modules := s.config.modules.length,
    resources := s.config.modules.foldl (fun n e => n + e.2.length) 0,
    actions := s.actions.length }

structure PermissionCheckResult where
  allowed : Bool
  permission : String
  userPermissions : List String
  reason : String
deriving DecidableEq

/-- `checkPermissionDetailed`. -/
def checkPermissionDetailed (s : PermissionService) (userPermissions : List String)
    (required : String) : PermissionCheckResult :=
  let allowed := hasPermission s userPermissions required
  { allowed := allowed,
    permission := required,
    userPermissions := userPermissions,
    reason := if allowed then "Permission granted"
              else "User does not have required permission: " ++ required }

deriving instance DecidableEq for Except

/-!  Reachability in a graph, and reachability through a restricted set of
     intermediate nodes (the Floyd–Warshall invariant shape). -/

inductive Reach (g : PermissionGraph) : String → String → Prop where
  | single {a b : String} : phas g.grants a b → Reach g a b
  | head {a b c : String} : phas g.grants a b → Reach g b c → Reach g a c

inductive ReachVia (g : PermissionGraph) (S : String → Prop) : String → String → Prop where
  | single {a b : String} : phas g.grants a b → ReachVia g S a b
  | comp {a k b : String} : S k → ReachVia g S a k → ReachVia g S k b → ReachVia g S a b

/-!  The forward/reverse mirror invariant. -/

def Mirror (g : PermissionGraph) : Prop :=
  ∀ a b, phas g.grants a b ↔ phas g.grantedBy b a

/-- Soundness invariant: every edge of the evolving graph is either an
original edge or a node-internal reachability fact. -/
def FwInv (g0 : PermissionGraph) (nodes : List String) (g : PermissionGraph) : Prop :=
  ∀ x y, phas g.grants x y →
    phas g0.grants x y ∨ (x ∈ nodes ∧ y ∈ nodes ∧ ReachVia g0 (· ∈ nodes) x y)

/-- Completeness invariant: all node-internal paths through intermediates in
`S` are already materialized. -/
def FwComplete (g0 : PermissionGraph) (nodes : List String) (S : String → Prop)
    (g : PermissionGraph) : Prop :=
  ∀ x y, x ∈ nodes → y ∈ nodes → ReachVia g0 S x y → phas g.grants x y

/-- Closedness of the forward index over a node set. -/
def FwClosed (nodes : List String) (g : PermissionGraph) : Prop :=
  ∀ i k j, i ∈ nodes → k ∈ nodes → j ∈ nodes →
    phas g.grants i k → phas g.grants k j → phas g.grants i j

def unvisitedCount (U visited : List String) : Nat :=
  (U.filter (fun x => decide (x ∉ visited))).length

/-- A finish-ordered node list: every element is followed only by nodes it no
longer reaches, so each element's targets sit strictly deeper in the list. -/
def TopoList (g : PermissionGraph) : List String → Prop
  | [] => True
  | a :: l => a ∉ l ∧ (∀ b, phas g.grants a b → b ∈ l) ∧ TopoList g l

/-- The DFS invariant: the finished nodes (visited but not on the active
stack) always carry a topological finish order. -/
def DfsInv (g : PermissionGraph) (visited stack : List String) : Prop :=
  ∃ L, TopoList g L ∧ ∀ x, x ∈ L ↔ (x ∈ visited ∧ x ∉ stack)

/-- The active DFS stack is a path: each entry has a direct edge to the entry
pushed on top of it. -/
def ChainStack (g : PermissionGraph) : List String → Prop
  | [] => True
  | [_] => True
  | a :: b :: t => phas g.grants b a ∧ ChainStack g (b :: t)

/-- Relation between the stack top and the node about to be checked. -/
def StackTop (g : PermissionGraph) (stack : List String) (n : String) : Prop :=
  match stack with
  | [] => True
  | a :: _ => phas g.grants a n

/-!  The built graph stays inside the catalog: every grantee and every
reverse-index key is a catalog member; every forward key is a catalog member
except the builder-created global wildcard node `*:*`. -/

def GraphBounded (cat : List String) (g : PermissionGraph) : Prop :=
  (∀ a b, phas g.grants a b → b ∈ cat) ∧
  (∀ b, pkey g.grantedBy b → b ∈ cat) ∧
  (∀ a, pkey g.grants a → (a ∈ cat ∨ a = "*:*"))

/-- Requirement on a configured hierarchy: implied actions are themselves
declared actions (the default hierarchy satisfies this). -/
abbrev HierClosed (cfg : RBACConfig) : Prop :=
  ∀ e ∈ effHierarchy cfg, ∀ ia ∈ e.2, ia ∈ effActions cfg

def serviceDefault : PermissionService :=
  { config := { modules := [], roles := [], hierarchy := none },
    actions := [], hierarchy := [], allPermissions := [], graph := ⟨[], []⟩ }

/-- Tiny configuration (one module, single-action hierarchy) for witnesses. -/
def cfgTiny : RBACConfig :=
  { modules := [("u", [])], roles := [], hierarchy := some [("read", [])] }

def sTiny : PermissionService := ((build cfgTiny).toOption).getD serviceDefault

/-- Two-action configuration giving a two-hop chain inside the catalog. -/
def cfgTwo : RBACConfig :=
  { modules := [("u", [])], roles := [],
    hierarchy := some [("update", ["read"]), ("read", [])] }

def sTwo : PermissionService := ((build cfgTwo).toOption).getD serviceDefault

/-- The configuration fixed by the spec's worked example. -/
def cfgC6 : RBACConfig :=
  { modules := [("users", ["profile", "settings"]), ("posts", ["content", "comments"])],
    roles := [], hierarchy := none }

def s6 : PermissionService :=
  ⟨cfgC6, effActions cfgC6, effHierarchy cfgC6, catalogOf cfgC6,
    applyFloydWarshall (catalogOf cfgC6) (graphOf cfgC6)⟩

/-- Query dispatcher used to state the worked example as a closed fact. -/
def hasPermissionOfBuild (cfg : RBACConfig) (ups : List String) (req : String) : Bool :=
  match build cfg with
  | .ok s => hasPermission s ups req
  | .error _ => false

/-- Mutually inheriting roles with otherwise valid contents. -/
def roleAok : Role :=
  { id := "A", name := "A", permissions := [], inherits := ["B"], description := none }

def roleBok : Role :=
  { id := "B", name := "B", permissions := [], inherits := ["A"], description := none }

def cfgC3 : RBACConfig :=
  { modules := [("m", [])], roles := [("A", roleAok), ("B", roleBok)],
    hierarchy := some [("read", [])] }

/-- Mutually inheriting roles where a third defect (an unknown permission)
makes validation fail before cycle detection is reached. -/
def roleBbad : Role :=
  { id := "B", name := "B", permissions := ["nope"], inherits := ["A"],
    description := none }

def cfgC3bad : RBACConfig :=
  { modules := [("m", [])], roles := [("A", roleAok), ("B", roleBbad)],
    hierarchy := some [("read", [])] }

/-- A module literally named `role`, making `role:read` a catalog member that
names no declared role. -/
def roleMy : Role :=
  { id := "myrole", name := "My", permissions := ["role:read"], inherits := [],
    description := none }

def cfgC4ce : RBACConfig :=
  { modules := [("role", [])], roles := [("myrole", roleMy)],
    hierarchy := some [("read", [])] }

def isOkB (e : Except String PermissionService) : Bool :=
  match e with
  | .ok _ => true
  | .error _ => false

/-- A role-table defect as the validator checks for it: some declared role
grants a string outside the catalog or inherits a parent whose `role:` node
is outside the catalog. -/
def HasViolation (cfg : RBACConfig) : Prop :=
  ∃ rr ∈ cfg.roles,
    ((∃ p ∈ (rr : String × Role).2.permissions, p ∉ catalogOf cfg) ∨
     (∃ par ∈ (rr : String × Role).2.inherits, ("role:" ++ par) ∉ catalogOf cfg))

/-- The raised message names a genuine defect of the matching kind. -/
def DescribesViolation (cfg : RBACConfig) (e : String) : Prop :=
  ∃ rr ∈ cfg.roles,
    ((∃ p ∈ (rr : String × Role).2.permissions, p ∉ catalogOf cfg ∧
        ((strStarts p "role:" = true ∧ e = invalidRoleRefMsg p (rr : String × Role).1) ∨
         (strStarts p "role:" = false ∧ e = invalidPermissionMsg p (rr : String × Role).1))) ∨
     (∃ par ∈ (rr : String × Role).2.inherits, ("role:" ++ par) ∉ catalogOf cfg ∧
        e = inheritMsg (rr : String × Role).1 par))

/-!  Basic lemmas about the map model. -/

theorem pget_pAdd_self (m : PMap) (a b : String) :
    pget (pAdd m a b) a = (pget m a).map (fun vs => vs.insert b) := by
  induction m with
  | nil => rfl
  | cons e rest ih =>
    obtain ⟨k, vs⟩ := e
    by_cases hk : k = a
    · subst hk; simp [pAdd, pget]
    · simp [pAdd, pget, hk, ih]

theorem pget_pAdd_ne (m : PMap) (a b x : String) (h : x ≠ a) :
    pget (pAdd m a b) x = pget m x := by
  induction m with
  | nil => rfl
  | cons e rest ih =>
    obtain ⟨k, vs⟩ := e
    by_cases hk : k = a
    · subst hk
      have hkx : ¬ k = x := fun hkx => h hkx.symm
      simp [pAdd, pget, hkx]
    · by_cases hx : k = x
      · subst hx
        simp [pAdd, pget, hk]
      · simp [pAdd, pget, hk, hx, ih]

theorem phas_pAdd (m : PMap) (a b x y : String) :
    phas (pAdd m a b) x y ↔ (phas m x y ∨ (x = a ∧ y = b ∧ pkey m a)) := by
  by_cases hx : x = a
  · subst hx
    unfold phas pgetD pkey
    rw [pget_pAdd_self]
    cases h : pget m x with
    | none => simp [h]
    | some vs =>
      simp only [h, Option.map_some', Option.getD_some, Option.isSome_some,
        List.mem_insert_iff]
      tauto
  · unfold phas pgetD
    rw [pget_pAdd_ne m a b x hx]
    simp [hx]

theorem pkey_pAdd (m : PMap) (a b x : String) : pkey (pAdd m a b) x ↔ pkey m x := by
  by_cases hx : x = a
  · subst hx
    unfold pkey
    rw [pget_pAdd_self]
    cases h : pget m x <;> simp [h]
  · unfold pkey
    rw [pget_pAdd_ne m a b x hx]

theorem pget_append_of_isSome (m₁ m₂ : PMap) (x : String) (v : List String)
    (h : pget m₁ x = some v) : pget (m₁ ++ m₂) x = some v := by
  induction m₁ with
  | nil => simp [pget] at h
  | cons e rest ih =>
    obtain ⟨k, vs⟩ := e
    by_cases hk : k = x <;> simp_all [pget]

theorem pget_append_of_none (m₁ m₂ : PMap) (x : String)
    (h : pget m₁ x = none) : pget (m₁ ++ m₂) x = pget m₂ x := by
  induction m₁ with
  | nil => rfl
  | cons e rest ih =>
    obtain ⟨k, vs⟩ := e
    by_cases hk : k = x <;> simp_all [pget]

theorem phas_pEnsure (m : PMap) (a x y : String) :
    phas (pEnsure m a) x y ↔ phas m x y := by
  unfold pEnsure
  by_cases h : (pget m a).isSome
  · simp [h]
  · simp only [h, if_false, Bool.false_eq_true]
    unfold phas pgetD
    cases hx : pget m x with
    | some v => rw [pget_append_of_isSome _ _ _ _ hx]
    | none =>
      rw [pget_append_of_none _ _ _ hx]
      by_cases hax : a = x <;> simp [pget, hax]

theorem pkey_pEnsure (m : PMap) (a x : String) :
    pkey (pEnsure m a) x ↔ (x = a ∨ pkey m x) := by
  unfold pEnsure pkey
  by_cases h : (pget m a).isSome
  · simp only [h, if_true]
    constructor
    · exact fun hx => Or.inr hx
    · rintro (rfl | hx)
      · exact h
      · exact hx
  · simp only [h, if_false, Bool.false_eq_true]
    cases hx : pget m x with
    | some v =>
      rw [pget_append_of_isSome _ _ _ _ hx]
      simp [pkey, hx]
    | none =>
      rw [pget_append_of_none _ _ _ hx]
      by_cases hax : a = x <;> simp [pget, hax, hx, eq_comm]

theorem pAdd_eq_of_phas (m : PMap) (a b : String) (h : phas m a b) : pAdd m a b = m := by
  induction m with
  | nil => rfl
  | cons e rest ih =>
    obtain ⟨k, vs⟩ := e
    by_cases hk : k = a
    · subst hk
      have hb : b ∈ vs := by
        unfold phas pgetD at h
        simpa [pget] using h
      simp [pAdd, List.insert_of_mem hb]
    · have hrest : phas rest a b := by
        unfold phas pgetD at h ⊢
        simpa [pget, hk] using h
      simp [pAdd, hk, ih hrest]

theorem pAdd_eq_of_not_pkey (m : PMap) (a b : String) (h : ¬ pkey m a) : pAdd m a b = m := by
  induction m with
  | nil => rfl
  | cons e rest ih =>
    obtain ⟨k, vs⟩ := e
    by_cases hk : k = a
    · exfalso
      apply h
      subst hk
      simp [pkey, pget]
    · have hrest : ¬ pkey rest a := by
        intro hr
        apply h
        unfold pkey at hr ⊢
        simpa [pget, hk] using hr
      simp [pAdd, hk, ih hrest]

theorem phas_imp_pkey (m : PMap) (a b : String) (h : phas m a b) : pkey m a := by
  unfold phas pgetD at h
  unfold pkey
  cases hx : pget m a with
  | none => rw [hx] at h; simp at h
  | some v => simp

/-!  Effect of `addGrant` and of the closure edge insertion. -/

theorem phas_addGrant_grants (g : PermissionGraph) (a b x y : String) :
    phas (addGrant g a b).grants x y ↔ (phas g.grants x y ∨ (x = a ∧ y = b)) := by
  show phas (pAdd (pEnsure g.grants a) a b) x y ↔ _
  rw [phas_pAdd, phas_pEnsure, pkey_pEnsure]
  tauto

theorem phas_addGrant_grantedBy (g : PermissionGraph) (a b x y : String) :
    phas (addGrant g a b).grantedBy x y ↔ (phas g.grantedBy x y ∨ (x = b ∧ y = a)) := by
  show phas (pAdd (pEnsure g.grantedBy b) b a) x y ↔ _
  rw [phas_pAdd, phas_pEnsure, pkey_pEnsure]
  tauto

theorem pkey_addGrant_grants (g : PermissionGraph) (a b x : String) :
    pkey (addGrant g a b).grants x ↔ (x = a ∨ pkey g.grants x) := by
  show pkey (pAdd (pEnsure g.grants a) a b) x ↔ _
  rw [pkey_pAdd, pkey_pEnsure]

theorem pkey_addGrant_grantedBy (g : PermissionGraph) (a b x : String) :
    pkey (addGrant g a b).grantedBy x ↔ (x = b ∨ pkey g.grantedBy x) := by
  show pkey (pAdd (pEnsure g.grantedBy b) b a) x ↔ _
  rw [pkey_pAdd, pkey_pEnsure]

theorem phas_addClosureEdge_grants (g : PermissionGraph) (i j x y : String) :
    phas (addClosureEdge g i j).grants x y ↔
      (phas g.grants x y ∨ (x = i ∧ y = j ∧ pkey g.grants i)) := by
  exact phas_pAdd g.grants i j x y

theorem phas_addClosureEdge_grantedBy (g : PermissionGraph) (i j x y : String) :
    phas (addClosureEdge g i j).grantedBy x y ↔
      (phas g.grantedBy x y ∨ (x = j ∧ y = i ∧ pkey g.grantedBy j)) := by
  exact phas_pAdd g.grantedBy j i x y

theorem pkey_addClosureEdge_grants (g : PermissionGraph) (i j x : String) :
    pkey (addClosureEdge g i j).grants x ↔ pkey g.grants x :=
  pkey_pAdd g.grants i j x

theorem pkey_addClosureEdge_grantedBy (g : PermissionGraph) (i j x : String) :
    pkey (addClosureEdge g i j).grantedBy x ↔ pkey g.grantedBy x :=
  pkey_pAdd g.grantedBy j i x

theorem Reach.trans {g : PermissionGraph} {a b c : String}
    (h₁ : Reach g a b) (h₂ : Reach g b c) : Reach g a c := by
  induction h₁ with
  | single h => exact Reach.head h h₂
  | head h _ ih => exact Reach.head h (ih h₂)

theorem Reach.snoc {g : PermissionGraph} {a b c : String}
    (h₁ : Reach g a b) (h₂ : phas g.grants b c) : Reach g a c :=
  Reach.trans h₁ (Reach.single h₂)

theorem Reach.grantee {g : PermissionGraph} {a b : String} (h : Reach g a b) :
    ∃ x, phas g.grants x b := by
  induction h with
  | single h => exact ⟨_, h⟩
  | head _ _ ih => exact ih

theorem Reach.source_pkey {g : PermissionGraph} {a b : String} (h : Reach g a b) :
    pkey g.grants a := by
  cases h with
  | single h => exact phas_imp_pkey _ _ _ h
  | head h _ => exact phas_imp_pkey _ _ _ h

theorem ReachVia.mono {g : PermissionGraph} {S T : String → Prop} {a b : String}
    (hST : ∀ x, S x → T x) (h : ReachVia g S a b) : ReachVia g T a b := by
  induction h with
  | single h => exact ReachVia.single h
  | comp hk _ _ ih₁ ih₂ => exact ReachVia.comp (hST _ hk) ih₁ ih₂

theorem ReachVia.toReach {g : PermissionGraph} {S : String → Prop} {a b : String}
    (h : ReachVia g S a b) : Reach g a b := by
  induction h with
  | single h => exact Reach.single h
  | comp _ _ _ ih₁ ih₂ => exact Reach.trans ih₁ ih₂

theorem Reach.toVia {g : PermissionGraph} {S : String → Prop} {a b : String}
    (hg : ∀ x y, phas g.grants x y → S y) (h : Reach g a b) : ReachVia g S a b := by
  induction h with
  | single h => exact ReachVia.single h
  | head h hr ih => exact ReachVia.comp (hg _ _ h) (ReachVia.single h) ih

theorem reachVia_false {g : PermissionGraph} {a b : String}
    (h : ReachVia g (fun _ => False) a b) : phas g.grants a b := by
  induction h with
  | single h => exact h
  | comp hk _ _ _ _ => exact absurd hk id

theorem ReachVia.decomp {g : PermissionGraph} {S : String → Prop} {k a b : String}
    (h : ReachVia g (fun x => x = k ∨ S x) a b) :
    ReachVia g S a b ∨ (ReachVia g S a k ∧ ReachVia g S k b) := by
  induction h with
  | single h => exact Or.inl (ReachVia.single h)
  | comp hm _ _ ih₁ ih₂ =>
    rcases hm with rfl | hmS
    · refine Or.inr ⟨?_, ?_⟩
      · rcases ih₁ with h | ⟨h, _⟩ <;> exact h
      · rcases ih₂ with h | ⟨_, h⟩ <;> exact h
    · rcases ih₁ with h₁ | ⟨h₁a, h₁b⟩ <;> rcases ih₂ with h₂ | ⟨h₂a, h₂b⟩
      · exact Or.inl (ReachVia.comp hmS h₁ h₂)
      · exact Or.inr ⟨ReachVia.comp hmS h₁ h₂a, h₂b⟩
      · exact Or.inr ⟨h₁a, ReachVia.comp hmS h₁b h₂⟩
      · exact Or.inr ⟨h₁a, h₂b⟩

theorem reach_closed_set {g : PermissionGraph} {S : List String}
    (h₂ : ∀ x ∈ S, ∀ y ∈ pgetD g.grants x, y ∈ S) :
    ∀ {a b : String}, Reach g a b → (∀ y ∈ pgetD g.grants a, y ∈ S) → b ∈ S := by
  intro a b h
  induction h with
  | single hab => exact fun h₁ => h₁ _ hab
  | head hab _ ih => exact fun h₁ => ih (h₂ _ (h₁ _ hab))

theorem mirror_empty : Mirror ⟨[], []⟩ := by
  intro a b
  simp [phas, pgetD, pget]

theorem mirror_addGrant (g : PermissionGraph) (a b : String) (h : Mirror g) :
    Mirror (addGrant g a b) := by
  intro x y
  rw [phas_addGrant_grants, phas_addGrant_grantedBy, h x y]
  tauto

theorem foldl_inv {α β : Type} (P : β → Prop) (f : β → α → β) :
    ∀ (l : List α) (init : β), P init → (∀ b a, a ∈ l → P b → P (f b a)) →
      P (l.foldl f init) := by
  intro l
  induction l with
  | nil => exact fun init h _ => h
  | cons x xs ih =>
    intro init h hstep
    exact ih _ (hstep init x (by simp) h)
      (fun b a ha hb => hstep b a (by simp [ha]) hb)

theorem mirror_applyHierarchy (hier : List (String × List String))
    (actions : List String) (g : PermissionGraph) (scope : String) (h : Mirror g) :
    Mirror (applyHierarchy hier actions g scope) := by
  unfold applyHierarchy
  apply foldl_inv Mirror _ actions _ _
    (fun b a _ hb => mirror_addGrant _ _ _ hb)
  exact foldl_inv Mirror _ hier g h
    (fun b e _ hb => foldl_inv Mirror _ e.2 b hb
      (fun b2 ia _ hb2 => mirror_addGrant _ _ _ hb2))

theorem mirror_addModuleEdges (hier : List (String × List String))
    (actions : List String) (g : PermissionGraph) (m : String × List String)
    (h : Mirror g) : Mirror (addModuleEdges hier actions g m) := by
  unfold addModuleEdges
  apply foldl_inv Mirror _ m.2 _ (mirror_applyHierarchy _ _ _ _ h)
  intro b2 r _ hb2
  apply mirror_addGrant
  apply foldl_inv Mirror _ actions _ (mirror_applyHierarchy _ _ _ _ hb2)
  exact fun b3 a _ hb3 => mirror_addGrant _ _ _ hb3

theorem mirror_addRoleEdges (g : PermissionGraph) (rr : String × Role)
    (h : Mirror g) : Mirror (addRoleEdges g rr) := by
  unfold addRoleEdges
  apply foldl_inv Mirror _ rr.2.inherits _
    (foldl_inv Mirror _ rr.2.permissions g h
      (fun b2 p _ hb2 => mirror_addGrant _ _ _ hb2))
  exact fun b2 par _ hb2 => mirror_addGrant _ _ _ hb2

theorem mirror_buildPermissionGraph (actions : List String)
    (hier : List (String × List String)) (cfg : RBACConfig) :
    Mirror (buildPermissionGraph actions hier cfg) := by
  unfold buildPermissionGraph
  apply foldl_inv Mirror addRoleEdges cfg.roles _ _
    (fun b rr _ hb => mirror_addRoleEdges b rr hb)
  apply foldl_inv Mirror _ actions _ _
    (fun b a _ hb => foldl_inv Mirror _ cfg.modules b hb
      (fun b2 m _ hb2 => mirror_addGrant _ _ _ hb2))
  apply foldl_inv Mirror _ cfg.modules _ _
    (fun b m _ hb => mirror_addModuleEdges hier actions b m hb)
  exact mirror_applyHierarchy _ _ _ _ mirror_empty

/-!  Floyd–Warshall: monotonicity, key stability, soundness, completeness and
     the exact characterization of the closed graph. -/

theorem phas_fwJ_mono (i k : String) :
    ∀ (js : List String) (g : PermissionGraph) {x y : String},
      phas g.grants x y → phas (fwJ g i k js).grants x y := by
  intro js
  induction js with
  | nil => exact fun g x y h => h
  | cons j js ih =>
    intro g x y h
    unfold fwJ
    apply ih
    by_cases hg : phas g.grants k j
    · rw [if_pos hg]
      exact (phas_addClosureEdge_grants g i j x y).mpr (Or.inl h)
    · rw [if_neg hg]; exact h

theorem phas_fwI_mono (nodes : List String) (k : String) :
    ∀ (il : List String) (g : PermissionGraph) {x y : String},
      phas g.grants x y → phas (fwI nodes k g il).grants x y := by
  intro il
  induction il with
  | nil => exact fun g x y h => h
  | cons i il ih =>
    intro g x y h
    unfold fwI
    apply ih
    by_cases hg : phas g.grants i k
    · rw [if_pos hg]; exact phas_fwJ_mono i k nodes g h
    · rw [if_neg hg]; exact h

theorem phas_fwK_mono (nodes : List String) :
    ∀ (ks : List String) (g : PermissionGraph) {x y : String},
      phas g.grants x y → phas (fwK nodes g ks).grants x y := by
  intro ks
  induction ks with
  | nil => exact fun g x y h => h
  | cons k ks ih =>
    intro g x y h
    unfold fwK
    exact ih _ (phas_fwI_mono nodes k nodes g h)

theorem pkey_fwJ_grants (i k : String) :
    ∀ (js : List String) (g : PermissionGraph) (x : String),
      pkey (fwJ g i k js).grants x ↔ pkey g.grants x := by
  intro js
  induction js with
  | nil => exact fun g x => Iff.rfl
  | cons j js ih =>
    intro g x
    unfold fwJ
    rw [ih]
    by_cases hg : phas g.grants k j
    · rw [if_pos hg]; exact pkey_addClosureEdge_grants g i j x
    · rw [if_neg hg]

theorem pkey_fwJ_grantedBy (i k : String) :
    ∀ (js : List String) (g : PermissionGraph) (x : String),
      pkey (fwJ g i k js).grantedBy x ↔ pkey g.grantedBy x := by
  intro js
  induction js with
  | nil => exact fun g x => Iff.rfl
  | cons j js ih =>
    intro g x
    unfold fwJ
    rw [ih]
    by_cases hg : phas g.grants k j
    · rw [if_pos hg]; exact pkey_addClosureEdge_grantedBy g i j x
    · rw [if_neg hg]

theorem pkey_fwI_grants (nodes : List String) (k : String) :
    ∀ (il : List String) (g : PermissionGraph) (x : String),
      pkey (fwI nodes k g il).grants x ↔ pkey g.grants x := by
  intro il
  induction il with
  | nil => exact fun g x => Iff.rfl
  | cons i il ih =>
    intro g x
    unfold fwI
    rw [ih]
    by_cases hg : phas g.grants i k
    · rw [if_pos hg]; exact pkey_fwJ_grants i k nodes g x
    · rw [if_neg hg]

theorem pkey_fwI_grantedBy (nodes : List String) (k : String) :
    ∀ (il : List String) (g : PermissionGraph) (x : String),
      pkey (fwI nodes k g il).grantedBy x ↔ pkey g.grantedBy x := by
  intro il
  induction il with
  | nil => exact fun g x => Iff.rfl
  | cons i il ih =>
    intro g x
    unfold fwI
    rw [ih]
    by_cases hg : phas g.grants i k
    · rw [if_pos hg]; exact pkey_fwJ_grantedBy i k nodes g x
    · rw [if_neg hg]

theorem pkey_fwK_grants (nodes : List String) :
    ∀ (ks : List String) (g : PermissionGraph) (x : String),
      pkey (fwK nodes g ks).grants x ↔ pkey g.grants x := by
  intro ks
  induction ks with
  | nil => exact fun g x => Iff.rfl
  | cons k ks ih =>
    intro g x
    unfold fwK
    rw [ih, pkey_fwI_grants]

theorem pkey_fwK_grantedBy (nodes : List String) :
    ∀ (ks : List String) (g : PermissionGraph) (x : String),
      pkey (fwK nodes g ks).grantedBy x ↔ pkey g.grantedBy x := by
  intro ks
  induction ks with
  | nil => exact fun g x => Iff.rfl
  | cons k ks ih =>
    intro g x
    unfold fwK
    rw [ih, pkey_fwI_grantedBy]

theorem pgetD_eq_nil_of_not_pkey (m : PMap) (x : String) (h : ¬ pkey m x) :
    pgetD m x = [] := by
  unfold pkey at h
  unfold pgetD
  cases hx : pget m x with
  | none => rfl
  | some v => rw [hx] at h; simp at h

theorem fwJ_inv (g0 : PermissionGraph) (nodes : List String) (i k : String)
    (hi : i ∈ nodes) (hk : k ∈ nodes) :
    ∀ (js : List String), js ⊆ nodes → ∀ (g : PermissionGraph), FwInv g0 nodes g →
      ReachVia g0 (· ∈ nodes) i k → FwInv g0 nodes (fwJ g i k js) := by
  intro js
  induction js with
  | nil => exact fun _ g hg _ => hg
  | cons j js ih =>
    intro hsub g hg hik
    unfold fwJ
    apply ih (fun z hz => hsub (List.mem_cons_of_mem j hz)) _ _ hik
    by_cases hguard : phas g.grants k j
    · rw [if_pos hguard]
      intro x y hxy
      rcases (phas_addClosureEdge_grants g i j x y).mp hxy with h | ⟨rfl, rfl, -⟩
      · exact hg x y h
      · right
        refine ⟨hi, hsub (List.mem_cons_self _ _), ?_⟩
        have hkj : ReachVia g0 (· ∈ nodes) k y := by
          rcases hg k y hguard with h | ⟨-, -, h⟩
          · exact ReachVia.single h
          · exact h
        exact ReachVia.comp hk hik hkj
    · rw [if_neg hguard]; exact hg

theorem fwI_inv (g0 : PermissionGraph) (nodes : List String) (k : String)
    (hk : k ∈ nodes) :
    ∀ (il : List String), il ⊆ nodes → ∀ (g : PermissionGraph), FwInv g0 nodes g →
      FwInv g0 nodes (fwI nodes k g il) := by
  intro il
  induction il with
  | nil => exact fun _ g hg => hg
  | cons i il ih =>
    intro hsub g hg
    unfold fwI
    apply ih (fun z hz => hsub (List.mem_cons_of_mem i hz))
    by_cases hguard : phas g.grants i k
    · rw [if_pos hguard]
      have hik : ReachVia g0 (· ∈ nodes) i k := by
        rcases hg i k hguard with h | ⟨-, -, h⟩
        · exact ReachVia.single h
        · exact h
      exact fwJ_inv g0 nodes i k (hsub (List.mem_cons_self i il)) hk nodes
        (fun z hz => hz) g hg hik
    · rw [if_neg hguard]; exact hg

theorem fwK_inv (g0 : PermissionGraph) (nodes : List String) :
    ∀ (ks : List String), ks ⊆ nodes → ∀ (g : PermissionGraph), FwInv g0 nodes g →
      FwInv g0 nodes (fwK nodes g ks) := by
  intro ks
  induction ks with
  | nil => exact fun _ g hg => hg
  | cons k ks ih =>
    intro hsub g hg
    unfold fwK
    exact ih (fun z hz => hsub (List.mem_cons_of_mem k hz)) _
      (fwI_inv g0 nodes k (hsub (List.mem_cons_self k ks)) nodes (fun z hz => hz) g hg)

theorem fw_sound (g0 : PermissionGraph) (nodes : List String) :
    FwInv g0 nodes (applyFloydWarshall nodes g0) :=
  fwK_inv g0 nodes nodes (fun _ hz => hz) g0 (fun _ _ h => Or.inl h)

theorem fwJ_adds (i k : String) :
    ∀ (js : List String) (g : PermissionGraph) (j : String),
      pkey g.grants i → j ∈ js → phas g.grants k j →
      phas (fwJ g i k js).grants i j := by
  intro js
  induction js with
  | nil => intro g j _ h; exact absurd h (List.not_mem_nil j)
  | cons j0 js ih =>
    intro g j hkey hmem hkj
    unfold fwJ
    rcases List.mem_cons.mp hmem with rfl | hmem2
    · rw [if_pos hkj]
      apply phas_fwJ_mono
      exact (phas_addClosureEdge_grants g i j i j).mpr (Or.inr ⟨rfl, rfl, hkey⟩)
    · have hstate :
          pkey (if phas g.grants k j0 then addClosureEdge g i j0 else g).grants i ∧
          phas (if phas g.grants k j0 then addClosureEdge g i j0 else g).grants k j := by
        by_cases hguard : phas g.grants k j0
        · rw [if_pos hguard]
          exact ⟨(pkey_addClosureEdge_grants g i j0 i).mpr hkey,
            (phas_addClosureEdge_grants g i j0 k j).mpr (Or.inl hkj)⟩
        · rw [if_neg hguard]; exact ⟨hkey, hkj⟩
      exact ih _ j hstate.1 hmem2 hstate.2

theorem fwI_adds (nodes : List String) (k : String) :
    ∀ (il : List String) (g : PermissionGraph) (i j : String),
      i ∈ il → j ∈ nodes → phas g.grants i k → phas g.grants k j →
      phas (fwI nodes k g il).grants i j := by
  intro il
  induction il with
  | nil => intro g i j h; exact absurd h (List.not_mem_nil i)
  | cons i0 il ih =>
    intro g i j hmem hj hik hkj
    unfold fwI
    rcases List.mem_cons.mp hmem with rfl | hmem2
    · rw [if_pos hik]
      apply phas_fwI_mono
      exact fwJ_adds i k nodes g j (phas_imp_pkey _ _ _ hik) hj hkj
    · have hstate :
          phas (if phas g.grants i0 k then fwJ g i0 k nodes else g).grants i k ∧
          phas (if phas g.grants i0 k then fwJ g i0 k nodes else g).grants k j := by
        by_cases hguard : phas g.grants i0 k
        · rw [if_pos hguard]
          exact ⟨phas_fwJ_mono i0 k nodes g hik, phas_fwJ_mono i0 k nodes g hkj⟩
        · rw [if_neg hguard]; exact ⟨hik, hkj⟩
      exact ih _ i j hmem2 hj hstate.1 hstate.2

theorem fw_round (g0 : PermissionGraph) (nodes : List String) (S : String → Prop)
    (k : String) (hk : k ∈ nodes) (g : PermissionGraph)
    (hc : FwComplete g0 nodes S g) :
    FwComplete g0 nodes (fun x => x = k ∨ S x) (fwI nodes k g nodes) := by
  intro x y hx hy hvia
  rcases hvia.decomp with h | ⟨h₁, h₂⟩
  · exact phas_fwI_mono nodes k nodes g (hc x y hx hy h)
  · exact fwI_adds nodes k nodes g x y hx hy (hc x k hx hk h₁) (hc k y hk hy h₂)

theorem fwK_complete (g0 : PermissionGraph) (nodes : List String) :
    ∀ (ks : List String), ks ⊆ nodes → ∀ (S : String → Prop) (g : PermissionGraph),
      FwComplete g0 nodes S g →
      FwComplete g0 nodes (fun x => x ∈ ks ∨ S x) (fwK nodes g ks) := by
  intro ks
  induction ks with
  | nil =>
    intro _ S g hc x y hx hy hvia
    refine hc x y hx hy (hvia.mono ?_)
    intro z hz
    rcases hz with hz | hz
    · exact absurd hz (List.not_mem_nil z)
    · exact hz
  | cons k ks ih =>
    intro hsub S g hc
    unfold fwK
    have h₁ := fw_round g0 nodes S k (hsub (List.mem_cons_self k ks)) g hc
    have h₂ := ih (fun z hz => hsub (List.mem_cons_of_mem k hz)) _ _ h₁
    intro x y hx hy hvia
    apply h₂ x y hx hy
    refine hvia.mono ?_
    intro z hz
    rcases hz with hz | hz
    · rcases List.mem_cons.mp hz with rfl | hz2
      · exact Or.inr (Or.inl rfl)
      · exact Or.inl hz2
    · exact Or.inr (Or.inr hz)

theorem fw_complete (g0 : PermissionGraph) (nodes : List String) :
    ∀ x y, x ∈ nodes → y ∈ nodes → ReachVia g0 (· ∈ nodes) x y →
      phas (applyFloydWarshall nodes g0).grants x y := by
  intro x y hx hy hvia
  have h0 : FwComplete g0 nodes (fun _ => False) g0 := by
    intro a b _ _ h
    exact reachVia_false h
  have h := fwK_complete g0 nodes nodes (fun _ hz => hz) _ g0 h0
  exact h x y hx hy (hvia.mono (fun z hz => Or.inl hz))

/-- Exact description of the closed forward index: an edge of the closure is
either an original direct edge, or a path between catalog nodes all of whose
intermediate hops are catalog nodes. -/
theorem fw_char (g0 : PermissionGraph) (nodes : List String) (x y : String) :
    phas (applyFloydWarshall nodes g0).grants x y ↔
      (phas g0.grants x y ∨
        (x ∈ nodes ∧ y ∈ nodes ∧ ReachVia g0 (· ∈ nodes) x y)) := by
  constructor
  · exact fun h => fw_sound g0 nodes x y h
  · rintro (h | ⟨hx, hy, hvia⟩)
    · exact phas_fwK_mono nodes nodes g0 h
    · exact fw_complete g0 nodes x y hx hy hvia

theorem mirror_fwJ (i k : String) :
    ∀ (js : List String) (g : PermissionGraph), Mirror g → pkey g.grants i →
      Mirror (fwJ g i k js) := by
  intro js
  induction js with
  | nil => exact fun g hm _ => hm
  | cons j js ih =>
    intro g hm hkey
    unfold fwJ
    by_cases hguard : phas g.grants k j
    · rw [if_pos hguard]
      apply ih
      · have hkeyGB : pkey g.grantedBy j :=
          phas_imp_pkey _ _ _ ((hm k j).mp hguard)
        intro x y
        rw [phas_addClosureEdge_grants, phas_addClosureEdge_grantedBy, hm x y]
        constructor
        · rintro (h | ⟨rfl, rfl, -⟩)
          · exact Or.inl h
          · exact Or.inr ⟨rfl, rfl, hkeyGB⟩
        · rintro (h | ⟨rfl, rfl, -⟩)
          · exact Or.inl h
          · exact Or.inr ⟨rfl, rfl, hkey⟩
      · exact (pkey_addClosureEdge_grants g i j i).mpr hkey
    · rw [if_neg hguard]; exact ih g hm hkey

theorem mirror_fwI (nodes : List String) (k : String) :
    ∀ (il : List String) (g : PermissionGraph), Mirror g →
      Mirror (fwI nodes k g il) := by
  intro il
  induction il with
  | nil => exact fun g hm => hm
  | cons i il ih =>
    intro g hm
    unfold fwI
    apply ih
    by_cases hguard : phas g.grants i k
    · rw [if_pos hguard]
      exact mirror_fwJ i k nodes g hm (phas_imp_pkey _ _ _ hguard)
    · rw [if_neg hguard]; exact hm

theorem mirror_fwK (nodes : List String) :
    ∀ (ks : List String) (g : PermissionGraph), Mirror g →
      Mirror (fwK nodes g ks) := by
  intro ks
  induction ks with
  | nil => exact fun g hm => hm
  | cons k ks ih =>
    intro g hm
    unfold fwK
    exact ih _ (mirror_fwI nodes k nodes g hm)

theorem mirror_fw (nodes : List String) (g : PermissionGraph) (hm : Mirror g) :
    Mirror (applyFloydWarshall nodes g) :=
  mirror_fwK nodes nodes g hm

/-!  Idempotence of the closure pass on an already-closed, mirrored graph. -/

theorem addClosureEdge_eq_self (g : PermissionGraph) (i j : String)
    (h1 : phas g.grants i j) (h2 : phas g.grantedBy j i) :
    addClosureEdge g i j = g := by
  unfold addClosureEdge
  rw [pAdd_eq_of_phas _ _ _ h1, pAdd_eq_of_phas _ _ _ h2]

theorem fw_closed (g0 : PermissionGraph) (nodes : List String) :
    FwClosed nodes (applyFloydWarshall nodes g0) := by
  intro i k j hi hk hj hik hkj
  apply (fw_char g0 nodes i j).mpr
  right
  refine ⟨hi, hj, ?_⟩
  have h₁ : ReachVia g0 (· ∈ nodes) i k := by
    rcases (fw_char g0 nodes i k).mp hik with h | ⟨-, -, h⟩
    · exact ReachVia.single h
    · exact h
  have h₂ : ReachVia g0 (· ∈ nodes) k j := by
    rcases (fw_char g0 nodes k j).mp hkj with h | ⟨-, -, h⟩
    · exact ReachVia.single h
    · exact h
  exact ReachVia.comp hk h₁ h₂

theorem fwJ_eq_self (g : PermissionGraph) (i k : String) (hm : Mirror g) :
    ∀ (js : List String), (∀ j ∈ js, phas g.grants k j → phas g.grants i j) →
      fwJ g i k js = g := by
  intro js
  induction js with
  | nil => intro _; rfl
  | cons j js ih =>
    intro h
    unfold fwJ
    by_cases hguard : phas g.grants k j
    · have hij : phas g.grants i j := h j (List.mem_cons_self j js) hguard
      rw [if_pos hguard, addClosureEdge_eq_self g i j hij ((hm i j).mp hij)]
      exact ih (fun j2 hj2 => h j2 (List.mem_cons_of_mem j hj2))
    · rw [if_neg hguard]
      exact ih (fun j2 hj2 => h j2 (List.mem_cons_of_mem j hj2))

theorem fwI_eq_self (nodes : List String) (k : String) (g : PermissionGraph)
    (hm : Mirror g) :
    ∀ (il : List String),
      (∀ i ∈ il, ∀ j ∈ nodes, phas g.grants i k → phas g.grants k j →
        phas g.grants i j) →
      fwI nodes k g il = g := by
  intro il
  induction il with
  | nil => intro _; rfl
  | cons i il ih =>
    intro h
    unfold fwI
    by_cases hguard : phas g.grants i k
    · rw [if_pos hguard,
        fwJ_eq_self g i k hm nodes
          (fun j hj hkj => h i (List.mem_cons_self i il) j hj hguard hkj)]
      exact ih (fun i2 hi2 => h i2 (List.mem_cons_of_mem i hi2))
    · rw [if_neg hguard]
      exact ih (fun i2 hi2 => h i2 (List.mem_cons_of_mem i hi2))

theorem fwK_eq_self (nodes : List String) (g : PermissionGraph) (hm : Mirror g)
    (hcl : FwClosed nodes g) :
    ∀ (ks : List String), ks ⊆ nodes → fwK nodes g ks = g := by
  intro ks
  induction ks with
  | nil => intro _; rfl
  | cons k ks ih =>
    intro hsub
    unfold fwK
    rw [fwI_eq_self nodes k g hm nodes
      (fun i hi j hj hik hkj => hcl i k j hi (hsub (List.mem_cons_self k ks)) hj hik hkj)]
    exact ih (fun z hz => hsub (List.mem_cons_of_mem k hz))

/-- Re-running the closure on its own (mirrored) output is the identity, as
graph data, not merely up to edge membership. -/
theorem fw_idem (nodes : List String) (g0 : PermissionGraph) (hm0 : Mirror g0) :
    applyFloydWarshall nodes (applyFloydWarshall nodes g0) =
      applyFloydWarshall nodes g0 :=
  fwK_eq_self nodes (applyFloydWarshall nodes g0) (mirror_fw nodes g0 hm0)
    (fw_closed g0 nodes) nodes (fun _ hz => hz)

/-!  The construction pipeline, unpacked. -/

theorem build_ok_elim (cfg : RBACConfig) (s : PermissionService)
    (h : build cfg = .ok s) :
    validateRoles (catalogOf cfg) cfg.roles = .ok () ∧
    detectCircularDependencies (graphOf cfg) (catalogOf cfg) = .ok () ∧
    s = ⟨cfg, effActions cfg, effHierarchy cfg, catalogOf cfg,
          applyFloydWarshall (catalogOf cfg) (graphOf cfg)⟩ := by
  unfold build at h
  cases hv : validateRoles (catalogOf cfg) cfg.roles with
  | error e => rw [hv] at h; exact Except.noConfusion h
  | ok u =>
    cases u
    rw [hv] at h
    cases hd : detectCircularDependencies (graphOf cfg) (catalogOf cfg) with
    | error e => rw [hd] at h; exact Except.noConfusion h
    | ok u2 =>
      cases u2
      rw [hd] at h
      injection h with h2
      exact ⟨rfl, rfl, h2.symm⟩

theorem build_error_of_validate (cfg : RBACConfig) (e : String)
    (h : validateRoles (catalogOf cfg) cfg.roles = .error e) :
    build cfg = .error e := by
  unfold build
  rw [h]

theorem build_error_of_detect (cfg : RBACConfig) (e : String)
    (hv : validateRoles (catalogOf cfg) cfg.roles = .ok ())
    (h : detectCircularDependencies (graphOf cfg) (catalogOf cfg) = .error e) :
    build cfg = .error e := by
  unfold build
  rw [hv, h]

/-!  The cycle-detecting DFS: equations, monotonicity of `visited`, fuel
     adequacy, soundness (a clean run certifies acyclicity over the start
     nodes) and the shape of every raised error. -/

theorem checkNode_zero (g : PermissionGraph) (visited stack : List String)
    (node : String) : checkNode g 0 visited stack node = .error fuelMsg := rfl

theorem checkNode_succ (g : PermissionGraph) (fuel : Nat)
    (visited stack : List String) (node : String) :
    checkNode g (fuel + 1) visited stack node =
      if node ∈ stack then .error (circularMsg node)
      else if node ∈ visited then .ok visited
      else checkList g fuel (node :: stack) (node :: visited)
        (pgetD g.grants node) := rfl

theorem checkList_nil (g : PermissionGraph) (fuel : Nat)
    (stack visited : List String) :
    checkList g fuel stack visited [] = .ok visited := rfl

theorem checkList_cons (g : PermissionGraph) (fuel : Nat)
    (stack visited : List String) (n : String) (ns : List String) :
    checkList g fuel stack visited (n :: ns) =
      match checkNode g fuel visited stack n with
      | .error e => .error e
      | .ok v2 => checkList g fuel stack v2 ns := by
  show List.foldlM _ _ _ = _
  rw [List.foldlM_cons]
  cases checkNode g fuel visited stack n <;> rfl

theorem checkList_mono_of (g : PermissionGraph) (fuel : Nat)
    (hN : ∀ visited stack node v2, checkNode g fuel visited stack node = .ok v2 →
        ∀ x ∈ visited, x ∈ v2) :
    ∀ (ns visited stack : List String) (v2 : List String),
      checkList g fuel stack visited ns = .ok v2 → ∀ x ∈ visited, x ∈ v2 := by
  intro ns
  induction ns with
  | nil =>
    intro visited stack v2 h x hx
    rw [checkList_nil] at h
    injection h with h2
    exact h2 ▸ hx
  | cons n ns ih =>
    intro visited stack v2 h x hx
    rw [checkList_cons] at h
    cases hn : checkNode g fuel visited stack n with
    | error e => rw [hn] at h; exact Except.noConfusion h
    | ok v1 =>
      rw [hn] at h
      exact ih v1 stack v2 h x (hN visited stack n v1 hn x hx)

theorem checkNode_mono (g : PermissionGraph) :
    ∀ (fuel : Nat) (visited stack : List String) (node : String) (v2 : List String),
      checkNode g fuel visited stack node = .ok v2 → ∀ x ∈ visited, x ∈ v2 := by
  intro fuel
  induction fuel with
  | zero =>
    intro visited stack node v2 h
    rw [checkNode_zero] at h
    exact Except.noConfusion h
  | succ fuel ih =>
    intro visited stack node v2 h x hx
    rw [checkNode_succ] at h
    by_cases h1 : node ∈ stack
    · rw [if_pos h1] at h; exact Except.noConfusion h
    · rw [if_neg h1] at h
      by_cases h2 : node ∈ visited
      · rw [if_pos h2] at h
        injection h with h3
        exact h3 ▸ hx
      · rw [if_neg h2] at h
        exact checkList_mono_of g fuel ih _ _ _ _ h x (List.mem_cons_of_mem node hx)

theorem checkList_mono (g : PermissionGraph) (fuel : Nat) :
    ∀ (ns visited stack : List String) (v2 : List String),
      checkList g fuel stack visited ns = .ok v2 → ∀ x ∈ visited, x ∈ v2 :=
  checkList_mono_of g fuel (checkNode_mono g fuel)

theorem length_filter_le_of_imp (p q : String → Bool)
    (h : ∀ z, p z = true → q z = true) :
    ∀ (U : List String), (U.filter p).length ≤ (U.filter q).length := by
  intro U
  induction U with
  | nil => exact Nat.le_refl 0
  | cons u U ih =>
    by_cases hp : p u = true
    · rw [List.filter_cons_of_pos hp, List.filter_cons_of_pos (h u hp)]
      simpa using Nat.succ_le_succ ih
    · rw [List.filter_cons_of_neg (by simpa using hp)]
      by_cases hq : q u = true
      · rw [List.filter_cons_of_pos hq]
        exact Nat.le_trans ih (Nat.le_succ _)
      · rw [List.filter_cons_of_neg (by simpa using hq)]
        exact ih

theorem unvisitedCount_le_of_subset (U visited v2 : List String)
    (h : ∀ x ∈ visited, x ∈ v2) :
    unvisitedCount U v2 ≤ unvisitedCount U visited :=
  length_filter_le_of_imp _ _
    (fun z hz => by
      simp only [decide_eq_true_eq] at hz ⊢
      exact fun hzv => hz (h z hzv)) U

theorem unvisitedCount_lt (U : List String) (x : String) :
    ∀ (visited : List String), x ∈ U → x ∉ visited →
      unvisitedCount U (x :: visited) < unvisitedCount U visited := by
  have haux : ∀ (visited : List String) (V : List String),
      (V.filter (fun z => decide (z ∉ x :: visited))).length ≤
        (V.filter (fun z => decide (z ∉ visited))).length := by
    intro visited V
    apply length_filter_le_of_imp
    intro z hz
    simp only [decide_eq_true_eq, List.mem_cons] at hz ⊢
    exact fun h2 => hz (Or.inr h2)
  intro visited hxU hxv
  unfold unvisitedCount
  induction U with
  | nil => exact absurd hxU (List.not_mem_nil x)
  | cons u U ih =>
    rcases List.mem_cons.mp hxU with rfl | hxU2
    · rw [List.filter_cons_of_neg (by simp), List.filter_cons_of_pos (by simpa using hxv)]
      exact Nat.lt_succ_of_le (haux visited U)
    · by_cases hu : u ∈ visited
      · rw [List.filter_cons_of_neg (by simp [hu]), List.filter_cons_of_neg (by simp [hu])]
        exact ih hxU2
      · by_cases hux : u = x
        · subst hux
          rw [List.filter_cons_of_neg (by simp), List.filter_cons_of_pos (by simpa using hu)]
          exact Nat.lt_succ_of_le (haux visited U)
        · rw [List.filter_cons_of_pos (by simp [hux, hu]), List.filter_cons_of_pos (by simpa using hu)]
          exact Nat.succ_lt_succ (ih hxU2)

theorem circularMsg_ne_fuelMsg (n : String) : circularMsg n ≠ fuelMsg := by
  intro h
  have hl := congrArg String.length h
  unfold circularMsg fuelMsg at hl
  rw [String.length_append] at hl
  have h45 : ("Circular dependency detected involving node: ").length = 45 := rfl
  have h18 : ("dfs fuel exhausted").length = 18 := rfl
  rw [h45, h18] at hl
  omega

theorem checkList_no_fuel_of (g : PermissionGraph) (U : List String) (fuel : Nat)
    (hN : ∀ visited stack node, node ∈ U → unvisitedCount U visited < fuel →
        checkNode g fuel visited stack node ≠ .error fuelMsg) :
    ∀ (ns visited stack : List String), (∀ n ∈ ns, n ∈ U) →
      unvisitedCount U visited < fuel →
      checkList g fuel stack visited ns ≠ .error fuelMsg := by
  intro ns
  induction ns with
  | nil =>
    intro visited stack _ _ h
    rw [checkList_nil] at h
    exact Except.noConfusion h
  | cons n ns ih =>
    intro visited stack hns hcount h
    rw [checkList_cons] at h
    cases hn : checkNode g fuel visited stack n with
    | error e =>
      rw [hn] at h
      injection h with h2
      exact hN visited stack n (hns n (List.mem_cons_self n ns)) hcount (h2 ▸ hn)
    | ok v1 =>
      rw [hn] at h
      refine ih v1 stack (fun m hm => hns m (List.mem_cons_of_mem n hm)) ?_ h
      exact Nat.lt_of_le_of_lt
        (unvisitedCount_le_of_subset U visited v1 (checkNode_mono g fuel _ _ _ _ hn))
        hcount

theorem checkNode_no_fuel (g : PermissionGraph) (U : List String)
    (hU : ∀ a b, phas g.grants a b → b ∈ U) :
    ∀ (fuel : Nat) (visited stack : List String) (node : String),
      node ∈ U → unvisitedCount U visited < fuel →
      checkNode g fuel visited stack node ≠ .error fuelMsg := by
  intro fuel
  induction fuel with
  | zero => intro visited stack node _ hcount; omega
  | succ fuel ih =>
    intro visited stack node hnode hcount h
    rw [checkNode_succ] at h
    by_cases h1 : node ∈ stack
    · rw [if_pos h1] at h
      injection h with h2
      exact circularMsg_ne_fuelMsg node h2
    · rw [if_neg h1] at h
      by_cases h2 : node ∈ visited
      · rw [if_pos h2] at h; exact Except.noConfusion h
      · rw [if_neg h2] at h
        refine checkList_no_fuel_of g U fuel ih (pgetD g.grants node)
          (node :: visited) (node :: stack) (fun t ht => hU node t ht) ?_ h
        have hlt := unvisitedCount_lt U node visited hnode h2
        omega

theorem checkList_no_fuel (g : PermissionGraph) (U : List String)
    (hU : ∀ a b, phas g.grants a b → b ∈ U) (fuel : Nat)
    (ns visited stack : List String) (hns : ∀ n ∈ ns, n ∈ U)
    (hcount : unvisitedCount U visited < fuel) :
    checkList g fuel stack visited ns ≠ .error fuelMsg :=
  checkList_no_fuel_of g U fuel (checkNode_no_fuel g U hU fuel) ns visited stack
    hns hcount

theorem unvisitedCount_nil (U : List String) : unvisitedCount U [] = U.length := by
  unfold unvisitedCount
  induction U with
  | nil => rfl
  | cons u U ih =>
    rw [List.filter_cons_of_pos (by simp)]
    simp [ih]

theorem mem_flatten_of_phas (m : PMap) (a b : String) (h : phas m a b) :
    b ∈ (m.map Prod.snd).flatten := by
  induction m with
  | nil => exact absurd h (by simp [phas, pgetD, pget])
  | cons e rest ih =>
    obtain ⟨k, vs⟩ := e
    by_cases hk : k = a
    · subst hk
      have hb : b ∈ vs := by simpa [phas, pgetD, pget] using h
      exact List.mem_flatten.mpr ⟨vs, by simp, hb⟩
    · have h2 : phas rest a b := by simpa [phas, pgetD, pget, hk] using h
      have h3 := ih h2
      simp only [List.map_cons, List.flatten_cons, List.mem_append]
      exact Or.inr h3

theorem topo_closed (g : PermissionGraph) :
    ∀ (L : List String), TopoList g L → ∀ x ∈ L, ∀ y ∈ pgetD g.grants x, y ∈ L := by
  intro L
  induction L with
  | nil => intro _ x hx; exact absurd hx (List.not_mem_nil x)
  | cons a l ih =>
    intro hT x hx y hxy
    have hT2 : a ∉ l ∧ (∀ b, phas g.grants a b → b ∈ l) ∧ TopoList g l := hT
    rcases List.mem_cons.mp hx with rfl | hx2
    · exact List.mem_cons_of_mem _ (hT2.2.1 y hxy)
    · exact List.mem_cons_of_mem _ (ih hT2.2.2 x hx2 y hxy)

theorem topo_split (g : PermissionGraph) :
    ∀ (L : List String), TopoList g L → ∀ a ∈ L,
      ∃ l₂ : List String, a ∉ l₂ ∧ (∀ b, phas g.grants a b → b ∈ l₂) ∧
        TopoList g l₂ ∧ ∀ x ∈ l₂, x ∈ L := by
  intro L
  induction L with
  | nil => intro _ a ha; exact absurd ha (List.not_mem_nil a)
  | cons h0 l ih =>
    intro hT a ha
    have hT2 : h0 ∉ l ∧ (∀ b, phas g.grants h0 b → b ∈ l) ∧ TopoList g l := hT
    rcases List.mem_cons.mp ha with rfl | ha2
    · exact ⟨l, hT2.1, hT2.2.1, hT2.2.2, fun x hx => List.mem_cons_of_mem _ hx⟩
    · obtain ⟨l₂, h1, h2, h3, h4⟩ := ih hT2.2.2 a ha2
      exact ⟨l₂, h1, h2, h3, fun x hx => List.mem_cons_of_mem _ (h4 x hx)⟩

theorem topo_no_cycle (g : PermissionGraph) (L : List String) (hT : TopoList g L)
    (a : String) (ha : a ∈ L) : ¬ Reach g a a := by
  intro hr
  obtain ⟨l₂, hnotin, htargets, hT2, -⟩ := topo_split g L hT a ha
  exact hnotin (reach_closed_set (topo_closed g l₂ hT2) hr htargets)

theorem checkList_sound_of (g : PermissionGraph) (fuel : Nat)
    (hN : ∀ visited stack node v2,
      checkNode g fuel visited stack node = .ok v2 → DfsInv g visited stack →
      DfsInv g v2 stack ∧ (∀ x ∈ visited, x ∈ v2) ∧ node ∈ v2 ∧ node ∉ stack) :
    ∀ (ns visited stack : List String) (v2 : List String),
      checkList g fuel stack visited ns = .ok v2 → DfsInv g visited stack →
      DfsInv g v2 stack ∧ (∀ x ∈ visited, x ∈ v2) ∧
        ∀ n ∈ ns, n ∈ v2 ∧ n ∉ stack := by
  intro ns
  induction ns with
  | nil =>
    intro visited stack v2 h hinv
    rw [checkList_nil] at h
    injection h with h2
    subst h2
    exact ⟨hinv, fun x hx => hx, fun n hn => absurd hn (List.not_mem_nil n)⟩
  | cons n ns ih =>
    intro visited stack v2 h hinv
    rw [checkList_cons] at h
    cases hn : checkNode g fuel visited stack n with
    | error e => rw [hn] at h; exact Except.noConfusion h
    | ok v1 =>
      rw [hn] at h
      obtain ⟨hinv1, hm1, hn1, hns1⟩ := hN visited stack n v1 hn hinv
      obtain ⟨hinv2, hm2, hrest⟩ := ih v1 stack v2 h hinv1
      refine ⟨hinv2, fun x hx => hm2 x (hm1 x hx), ?_⟩
      intro m hm
      rcases List.mem_cons.mp hm with rfl | hm3
      · exact ⟨hm2 _ hn1, hns1⟩
      · exact hrest m hm3

theorem checkNode_sound (g : PermissionGraph) :
    ∀ (fuel : Nat) (visited stack : List String) (node : String) (v2 : List String),
      checkNode g fuel visited stack node = .ok v2 → DfsInv g visited stack →
      DfsInv g v2 stack ∧ (∀ x ∈ visited, x ∈ v2) ∧ node ∈ v2 ∧ node ∉ stack := by
  intro fuel
  induction fuel with
  | zero =>
    intro visited stack node v2 h
    rw [checkNode_zero] at h
    exact fun _ => Except.noConfusion h
  | succ fuel ih =>
    intro visited stack node v2 h hinv
    rw [checkNode_succ] at h
    by_cases h1 : node ∈ stack
    · rw [if_pos h1] at h; exact Except.noConfusion h
    · rw [if_neg h1] at h
      by_cases h2 : node ∈ visited
      · rw [if_pos h2] at h
        injection h with h3
        subst h3
        exact ⟨hinv, fun x hx => hx, h2, h1⟩
      · rw [if_neg h2] at h
        obtain ⟨L, hT, hiff⟩ := hinv
        have hinv1 : DfsInv g (node :: visited) (node :: stack) := by
          refine ⟨L, hT, fun x => ?_⟩
          rw [hiff x]
          constructor
          · rintro ⟨hxv, hxs⟩
            refine ⟨List.mem_cons_of_mem _ hxv, ?_⟩
            intro hxns
            rcases List.mem_cons.mp hxns with rfl | hxs2
            · exact h2 hxv
            · exact hxs hxs2
          · rintro ⟨hxv, hxs⟩
            have hxne : x ≠ node := fun he => hxs (he ▸ List.mem_cons_self node stack)
            rcases List.mem_cons.mp hxv with rfl | hxv2
            · exact absurd rfl hxne
            · exact ⟨hxv2, fun hx2 => hxs (List.mem_cons_of_mem _ hx2)⟩
        obtain ⟨hinv2, hm2, htar⟩ := checkList_sound_of g fuel ih _ _ _ _ h hinv1
        obtain ⟨L2, hT2, hiff2⟩ := hinv2
        have hnodev2 : node ∈ v2 := hm2 node (List.mem_cons_self node visited)
        have hTnew : TopoList g (node :: L2) := by
          refine ⟨?_, ?_, hT2⟩
          · intro hmem
            exact ((hiff2 node).mp hmem).2 (List.mem_cons_self node stack)
          · intro b hb
            have hbt := htar b hb
            exact (hiff2 b).mpr ⟨hbt.1, hbt.2⟩
        refine ⟨⟨node :: L2, hTnew, ?_⟩,
          fun x hx => hm2 x (List.mem_cons_of_mem _ hx), hnodev2, h1⟩
        intro x
        constructor
        · intro hx
          rcases List.mem_cons.mp hx with rfl | hx2
          · exact ⟨hnodev2, h1⟩
          · have h4 := (hiff2 x).mp hx2
            exact ⟨h4.1, fun hs => h4.2 (List.mem_cons_of_mem _ hs)⟩
        · rintro ⟨hxv, hxs⟩
          by_cases hxn : x = node
          · exact hxn ▸ List.mem_cons_self node L2
          · refine List.mem_cons_of_mem _ ((hiff2 x).mpr ⟨hxv, ?_⟩)
            intro hx2
            rcases List.mem_cons.mp hx2 with h3 | h3
            · exact hxn h3
            · exact hxs h3

theorem checkList_sound (g : PermissionGraph) (fuel : Nat) :
    ∀ (ns visited stack : List String) (v2 : List String),
      checkList g fuel stack visited ns = .ok v2 → DfsInv g visited stack →
      DfsInv g v2 stack ∧ (∀ x ∈ visited, x ∈ v2) ∧
        ∀ n ∈ ns, n ∈ v2 ∧ n ∉ stack :=
  checkList_sound_of g fuel (checkNode_sound g fuel)

theorem chain_mem (g : PermissionGraph) :
    ∀ (t : List String) (a n : String), ChainStack g (a :: t) → n ∈ a :: t →
      n = a ∨ Reach g n a := by
  intro t
  induction t with
  | nil =>
    intro a n _ hn
    rcases List.mem_cons.mp hn with rfl | h
    · exact Or.inl rfl
    · exact absurd h (List.not_mem_nil n)
  | cons b t ih =>
    intro a n hc hn
    have hc2 : phas g.grants b a ∧ ChainStack g (b :: t) := hc
    rcases List.mem_cons.mp hn with rfl | hn2
    · exact Or.inl rfl
    · rcases ih b n hc2.2 hn2 with rfl | hr
      · exact Or.inr (Reach.single hc2.1)
      · exact Or.inr (Reach.snoc hr hc2.1)

theorem checkList_err_of (g : PermissionGraph) (fuel : Nat)
    (hN : ∀ visited stack node e, checkNode g fuel visited stack node = .error e →
      ChainStack g stack → StackTop g stack node →
      e = fuelMsg ∨ ∃ m, e = circularMsg m ∧ Reach g m m) :
    ∀ (ns visited stack : List String) (e : String),
      checkList g fuel stack visited ns = .error e →
      ChainStack g stack → (∀ n ∈ ns, StackTop g stack n) →
      e = fuelMsg ∨ ∃ m, e = circularMsg m ∧ Reach g m m := by
  intro ns
  induction ns with
  | nil =>
    intro visited stack e h
    rw [checkList_nil] at h
    exact Except.noConfusion h
  | cons n ns ih =>
    intro visited stack e h hchain htops
    rw [checkList_cons] at h
    cases hn : checkNode g fuel visited stack n with
    | error e2 =>
      rw [hn] at h
      injection h with h2
      exact hN visited stack n e (h2 ▸ hn) hchain (htops n (List.mem_cons_self n ns))
    | ok v1 =>
      rw [hn] at h
      exact ih v1 stack e h hchain (fun m hm => htops m (List.mem_cons_of_mem n hm))

theorem checkNode_err (g : PermissionGraph) :
    ∀ (fuel : Nat) (visited stack : List String) (node : String) (e : String),
      checkNode g fuel visited stack node = .error e →
      ChainStack g stack → StackTop g stack node →
      e = fuelMsg ∨ ∃ m, e = circularMsg m ∧ Reach g m m := by
  intro fuel
  induction fuel with
  | zero =>
    intro visited stack node e h _ _
    rw [checkNode_zero] at h
    injection h with h2
    exact Or.inl h2.symm
  | succ fuel ih =>
    intro visited stack node e h hchain htop
    rw [checkNode_succ] at h
    by_cases h1 : node ∈ stack
    · rw [if_pos h1] at h
      injection h with h2
      right
      refine ⟨node, h2.symm, ?_⟩
      cases stack with
      | nil => exact absurd h1 (List.not_mem_nil node)
      | cons a t =>
        rcases chain_mem g t a node hchain h1 with rfl | hr
        · exact Reach.single htop
        · exact Reach.snoc hr htop
    · rw [if_neg h1] at h
      by_cases h2 : node ∈ visited
      · rw [if_pos h2] at h; exact Except.noConfusion h
      · rw [if_neg h2] at h
        refine checkList_err_of g fuel ih _ _ _ _ h ?_ ?_
        · cases stack with
          | nil => exact trivial
          | cons a t => exact ⟨htop, hchain⟩
        · intro t ht
          exact ht

theorem detect_ok_no_cycle (g : PermissionGraph) (nodes : List String)
    (h : detectCircularDependencies g nodes = .ok ()) :
    ∀ n ∈ nodes, ¬ Reach g n n := by
  unfold detectCircularDependencies at h
  cases hc : checkList g (dfsFuel g nodes) [] [] nodes with
  | error e => rw [hc] at h; exact Except.noConfusion h
  | ok v =>
    have hinv0 : DfsInv g [] [] := ⟨[], trivial, by simp⟩
    obtain ⟨⟨L, hT, hiff⟩, -, hmem⟩ :=
      checkList_sound g (dfsFuel g nodes) nodes [] [] v hc hinv0
    intro n hn
    have h2 := hmem n hn
    exact topo_no_cycle g L hT n ((hiff n).mpr ⟨h2.1, h2.2⟩)

theorem detect_err_shape (g : PermissionGraph) (nodes : List String) (e : String)
    (h : detectCircularDependencies g nodes = .error e) :
    e = fuelMsg ∨ ∃ m, e = circularMsg m ∧ Reach g m m := by
  unfold detectCircularDependencies at h
  cases hc : checkList g (dfsFuel g nodes) [] [] nodes with
  | error e2 =>
    rw [hc] at h
    injection h with h2
    subst h2
    exact checkList_err_of g _ (checkNode_err g _) nodes [] [] e2 hc trivial
      (fun n _ => trivial)
  | ok v => rw [hc] at h; exact Except.noConfusion h

theorem detect_not_fuel (g : PermissionGraph) (nodes : List String) :
    detectCircularDependencies g nodes ≠ .error fuelMsg := by
  intro h
  unfold detectCircularDependencies at h
  cases hc : checkList g (dfsFuel g nodes) [] [] nodes with
  | ok v => rw [hc] at h; exact Except.noConfusion h
  | error e =>
    rw [hc] at h
    injection h with h2
    subst h2
    refine checkList_no_fuel g (dfsUniverse g nodes) ?_ (dfsFuel g nodes)
      nodes [] [] ?_ ?_ hc
    · intro a b hab
      unfold dfsUniverse
      exact List.mem_append.mpr (Or.inr (mem_flatten_of_phas g.grants a b hab))
    · intro n hn
      unfold dfsUniverse
      exact List.mem_append.mpr (Or.inl hn)
    · rw [unvisitedCount_nil]
      unfold dfsFuel
      omega

/-- A cycle through any start node forces the detector to raise the circular
error, and the node it names really lies on a cycle. -/
theorem detect_err_of_cycle (g : PermissionGraph) (nodes : List String)
    (n : String) (hn : n ∈ nodes) (hcyc : Reach g n n) :
    ∃ m, detectCircularDependencies g nodes = .error (circularMsg m) ∧
      Reach g m m := by
  cases hd : detectCircularDependencies g nodes with
  | ok u =>
    cases u
    exact absurd hcyc (detect_ok_no_cycle g nodes hd n hn)
  | error e =>
    rcases detect_err_shape g nodes e hd with rfl | ⟨m, rfl, hm⟩
    · exact absurd hd (detect_not_fuel g nodes)
    · exact ⟨m, rfl, hm⟩

/-!  Catalog membership and direct-edge presence lemmas. -/

theorem mem_addSet_iff (s : List String) (y x : String) :
    x ∈ addSet s y ↔ (x ∈ s ∨ x = y) := by
  unfold addSet
  by_cases h : y ∈ s
  · rw [if_pos h]
    constructor
    · exact Or.inl
    · rintro (hx | rfl)
      · exact hx
      · exact h
  · rw [if_neg h]
    simp [List.mem_append]

theorem mem_addSet_of_mem (s : List String) (y x : String) (h : x ∈ s) :
    x ∈ addSet s y :=
  (mem_addSet_iff s y x).mpr (Or.inl h)

theorem mem_addSet_self (s : List String) (y : String) : y ∈ addSet s y :=
  (mem_addSet_iff s y y).mpr (Or.inr rfl)

theorem foldl_hit {α β : Type} (P : β → Prop) (F : β → α → β) (m : α)
    (hstep : ∀ b a2, P b → P (F b a2)) (hhit : ∀ b, P (F b m)) :
    ∀ (l : List α) (b0 : β), m ∈ l → P (l.foldl F b0) := by
  intro l
  induction l with
  | nil => intro b0 h; exact absurd h (List.not_mem_nil m)
  | cons a l ih =>
    intro b0 hm
    rcases List.mem_cons.mp hm with rfl | hm2
    · exact foldl_inv P F l _ (hhit b0) (fun b a2 _ hb => hstep b a2 hb)
    · exact ih (F b0 a) hm2

theorem mem_foldl_addSet_mono {α : Type} (f : α → String) :
    ∀ (l : List α) (s : List String) (x : String), x ∈ s →
      x ∈ l.foldl (fun s2 z => addSet s2 (f z)) s := by
  intro l s x hx
  exact foldl_inv (fun s2 => x ∈ s2) _ l s hx
    (fun b a _ hb => mem_addSet_of_mem b (f a) x hb)

theorem mem_foldl_addSet_of_mem {α : Type} (f : α → String) :
    ∀ (l : List α) (s : List String) (z : α), z ∈ l →
      f z ∈ l.foldl (fun s2 z2 => addSet s2 (f z2)) s := by
  intro l s z hz
  exact foldl_hit (fun s2 => f z ∈ s2) _ z
    (fun b a hb => mem_addSet_of_mem b (f a) (f z) hb)
    (fun b => mem_addSet_self b (f z)) l s hz

theorem mem_foldl_addSet_iff :
    ∀ (l : List String) (s : List String) (x : String),
      x ∈ l.foldl addSet s ↔ (x ∈ s ∨ x ∈ l) := by
  intro l
  induction l with
  | nil => intro s x; simp
  | cons a l ih =>
    intro s x
    show x ∈ l.foldl addSet (addSet s a) ↔ _
    rw [ih, mem_addSet_iff]
    simp only [List.mem_cons]
    tauto

theorem mem_genModuleSet_mono (actions : List String) (s : List String)
    (m : String × List String) (x : String) (h : x ∈ s) :
    x ∈ genModuleSet actions s m := by
  simp only [genModuleSet]
  refine foldl_inv (fun s2 => x ∈ s2) _ m.2 _ ?_ ?_
  · exact mem_foldl_addSet_mono (fun a => m.1 ++ ":" ++ a) actions _ x
      (mem_addSet_of_mem s (m.1 ++ ":*") x h)
  · intro b r _ hb
    exact mem_foldl_addSet_mono (fun a => m.1 ++ "." ++ r ++ ":" ++ a) actions _ x
      (mem_addSet_of_mem b (m.1 ++ "." ++ r ++ ":*") x hb)

theorem mem_genModuleSet_star (actions : List String) (s : List String)
    (m : String × List String) : (m.1 ++ ":*") ∈ genModuleSet actions s m := by
  simp only [genModuleSet]
  refine foldl_inv (fun s2 => (m.1 ++ ":*") ∈ s2) _ m.2 _ ?_ ?_
  · exact mem_foldl_addSet_mono (fun a => m.1 ++ ":" ++ a) actions _ _
      (mem_addSet_self s (m.1 ++ ":*"))
  · intro b r _ hb
    exact mem_foldl_addSet_mono (fun a => m.1 ++ "." ++ r ++ ":" ++ a) actions _ _
      (mem_addSet_of_mem b (m.1 ++ "." ++ r ++ ":*") _ hb)

theorem mem_genModuleSet_action (actions : List String) (s : List String)
    (m : String × List String) (a : String) (ha : a ∈ actions) :
    (m.1 ++ ":" ++ a) ∈ genModuleSet actions s m := by
  simp only [genModuleSet]
  refine foldl_inv (fun s2 => (m.1 ++ ":" ++ a) ∈ s2) _ m.2 _ ?_ ?_
  · exact mem_foldl_addSet_of_mem (fun a2 => m.1 ++ ":" ++ a2) actions _ a ha
  · intro b r _ hb
    exact mem_foldl_addSet_mono (fun a2 => m.1 ++ "." ++ r ++ ":" ++ a2) actions _ _
      (mem_addSet_of_mem b (m.1 ++ "." ++ r ++ ":*") _ hb)

theorem mem_genModuleSet_resource_star (actions : List String) (s : List String)
    (m : String × List String) (r : String) (hr : r ∈ m.2) :
    (m.1 ++ "." ++ r ++ ":*") ∈ genModuleSet actions s m := by
  simp only [genModuleSet]
  refine foldl_hit (fun s2 => (m.1 ++ "." ++ r ++ ":*") ∈ s2) _ r ?_ ?_ m.2 _ hr
  · intro b r2 hb
    exact mem_foldl_addSet_mono (fun a2 => m.1 ++ "." ++ r2 ++ ":" ++ a2) actions _ _
      (mem_addSet_of_mem b (m.1 ++ "." ++ r2 ++ ":*") _ hb)
  · intro b
    exact mem_foldl_addSet_mono (fun a2 => m.1 ++ "." ++ r ++ ":" ++ a2) actions _ _
      (mem_addSet_self b (m.1 ++ "." ++ r ++ ":*"))

theorem mem_genModuleSet_resource_action (actions : List String) (s : List String)
    (m : String × List String) (r a : String) (hr : r ∈ m.2) (ha : a ∈ actions) :
    (m.1 ++ "." ++ r ++ ":" ++ a) ∈ genModuleSet actions s m := by
  simp only [genModuleSet]
  refine foldl_hit (fun s2 => (m.1 ++ "." ++ r ++ ":" ++ a) ∈ s2) _ r ?_ ?_ m.2 _ hr
  · intro b r2 hb
    exact mem_foldl_addSet_mono (fun a2 => m.1 ++ "." ++ r2 ++ ":" ++ a2) actions _ _
      (mem_addSet_of_mem b (m.1 ++ "." ++ r2 ++ ":*") _ hb)
  · intro b
    exact mem_foldl_addSet_of_mem (fun a2 => m.1 ++ "." ++ r ++ ":" ++ a2) actions _ a ha

theorem mem_catalog_star (actions : List String) (cfg : RBACConfig) (a : String)
    (ha : a ∈ actions) : ("*:" ++ a) ∈ generateAllPermissions actions cfg := by
  simp only [generateAllPermissions]
  refine mem_foldl_addSet_mono (fun rr => "role:" ++ rr.1) cfg.roles _ _ ?_
  refine foldl_inv (fun s => ("*:" ++ a) ∈ s) (genModuleSet actions) cfg.modules _ ?_ ?_
  · exact mem_foldl_addSet_of_mem (fun a2 => "*:" ++ a2) actions [] a ha
  · exact fun b m _ hb => mem_genModuleSet_mono actions b m _ hb

theorem mem_catalog_module_star (actions : List String) (cfg : RBACConfig)
    (m : String × List String) (hm : m ∈ cfg.modules) :
    (m.1 ++ ":*") ∈ generateAllPermissions actions cfg := by
  simp only [generateAllPermissions]
  refine mem_foldl_addSet_mono (fun rr => "role:" ++ rr.1) cfg.roles _ _ ?_
  refine foldl_hit (fun s => (m.1 ++ ":*") ∈ s) (genModuleSet actions) m ?_ ?_
    cfg.modules _ hm
  · exact fun b m2 hb => mem_genModuleSet_mono actions b m2 _ hb
  · exact fun b => mem_genModuleSet_star actions b m

theorem mem_catalog_module_action (actions : List String) (cfg : RBACConfig)
    (m : String × List String) (a : String) (hm : m ∈ cfg.modules) (ha : a ∈ actions) :
    (m.1 ++ ":" ++ a) ∈ generateAllPermissions actions cfg := by
  simp only [generateAllPermissions]
  refine mem_foldl_addSet_mono (fun rr => "role:" ++ rr.1) cfg.roles _ _ ?_
  refine foldl_hit (fun s => (m.1 ++ ":" ++ a) ∈ s) (genModuleSet actions) m ?_ ?_
    cfg.modules _ hm
  · exact fun b m2 hb => mem_genModuleSet_mono actions b m2 _ hb
  · exact fun b => mem_genModuleSet_action actions b m a ha

theorem mem_catalog_resource_star (actions : List String) (cfg : RBACConfig)
    (m : String × List String) (r : String) (hm : m ∈ cfg.modules) (hr : r ∈ m.2) :
    (m.1 ++ "." ++ r ++ ":*") ∈ generateAllPermissions actions cfg := by
  simp only [generateAllPermissions]
  refine mem_foldl_addSet_mono (fun rr => "role:" ++ rr.1) cfg.roles _ _ ?_
  refine foldl_hit (fun s => (m.1 ++ "." ++ r ++ ":*") ∈ s) (genModuleSet actions) m
    ?_ ?_ cfg.modules _ hm
  · exact fun b m2 hb => mem_genModuleSet_mono actions b m2 _ hb
  · exact fun b => mem_genModuleSet_resource_star actions b m r hr

theorem mem_catalog_resource_action (actions : List String) (cfg : RBACConfig)
    (m : String × List String) (r a : String) (hm : m ∈ cfg.modules) (hr : r ∈ m.2)
    (ha : a ∈ actions) :
    (m.1 ++ "." ++ r ++ ":" ++ a) ∈ generateAllPermissions actions cfg := by
  simp only [generateAllPermissions]
  refine mem_foldl_addSet_mono (fun rr => "role:" ++ rr.1) cfg.roles _ _ ?_
  refine foldl_hit (fun s => (m.1 ++ "." ++ r ++ ":" ++ a) ∈ s) (genModuleSet actions) m
    ?_ ?_ cfg.modules _ hm
  · exact fun b m2 hb => mem_genModuleSet_mono actions b m2 _ hb
  · exact fun b => mem_genModuleSet_resource_action actions b m r a hr ha

theorem mem_catalog_role (actions : List String) (cfg : RBACConfig)
    (rid : String) (role : Role) (h : (rid, role) ∈ cfg.roles) :
    ("role:" ++ rid) ∈ generateAllPermissions actions cfg := by
  simp only [generateAllPermissions]
  exact mem_foldl_addSet_of_mem (fun rr => "role:" ++ rr.1) cfg.roles _ (rid, role) h

theorem phas_addGrant_mono (g : PermissionGraph) (c d : String) {a b : String}
    (h : phas g.grants a b) : phas (addGrant g c d).grants a b :=
  (phas_addGrant_grants g c d a b).mpr (Or.inl h)

theorem phas_addRoleEdges_mono (g : PermissionGraph) (rr : String × Role)
    {a b : String} (h : phas g.grants a b) : phas (addRoleEdges g rr).grants a b := by
  simp only [addRoleEdges]
  refine foldl_inv (fun g2 : PermissionGraph => phas g2.grants a b) _ rr.2.inherits _ ?_ ?_
  · exact foldl_inv (fun g2 => phas g2.grants a b) _ rr.2.permissions g h
      (fun b2 p _ hb => phas_addGrant_mono b2 _ _ hb)
  · exact fun b2 par _ hb => phas_addGrant_mono b2 _ _ hb

theorem addRoleEdges_hit_inherit (g : PermissionGraph) (rid : String) (role : Role)
    (par : String) (hpar : par ∈ role.inherits) :
    phas (addRoleEdges g (rid, role)).grants ("role:" ++ rid) ("role:" ++ par) := by
  simp only [addRoleEdges]
  refine foldl_hit (fun g2 : PermissionGraph => phas g2.grants ("role:" ++ rid) ("role:" ++ par)) _ par
    ?_ ?_ role.inherits _ hpar
  · exact fun b2 p hb => phas_addGrant_mono b2 _ _ hb
  · exact fun b2 => (phas_addGrant_grants b2 _ _ _ _).mpr (Or.inr ⟨rfl, rfl⟩)

theorem graphOf_role_inherit (cfg : RBACConfig) (rid : String) (role : Role)
    (par : String) (h1 : (rid, role) ∈ cfg.roles) (h2 : par ∈ role.inherits) :
    phas (graphOf cfg).grants ("role:" ++ rid) ("role:" ++ par) := by
  unfold graphOf
  simp only [buildPermissionGraph]
  refine foldl_hit (fun g2 => phas g2.grants ("role:" ++ rid) ("role:" ++ par))
    addRoleEdges (rid, role) ?_ ?_ cfg.roles _ h1
  · exact fun b2 rr hb => phas_addRoleEdges_mono b2 rr hb
  · exact fun b2 => addRoleEdges_hit_inherit b2 rid role par h2

/-!  Validation: success and failure characterized. -/

theorem validatePermList_cons (catalog : List String) (roleId p : String)
    (ps : List String) :
    validatePermList catalog roleId (p :: ps) =
      if strStarts p "role:" = true then
        if p ∈ catalog then validatePermList catalog roleId ps
        else .error (invalidRoleRefMsg p roleId)
      else
        if p ∈ catalog then validatePermList catalog roleId ps
        else .error (invalidPermissionMsg p roleId) := by
  simp only [validatePermList]

theorem validateInheritList_cons (catalog : List String) (roleId par : String)
    (ps : List String) :
    validateInheritList catalog roleId (par :: ps) =
      if ("role:" ++ par) ∈ catalog then validateInheritList catalog roleId ps
      else .error (inheritMsg roleId par) := by
  simp only [validateInheritList]

theorem validatePermList_ok (catalog : List String) (roleId : String) :
    ∀ (ps : List String), validatePermList catalog roleId ps = .ok () →
      ∀ p ∈ ps, p ∈ catalog := by
  intro ps
  induction ps with
  | nil => intro _ p hp; exact absurd hp (List.not_mem_nil p)
  | cons p ps ih =>
    intro h q hq
    rw [validatePermList_cons] at h
    by_cases hc : p ∈ catalog
    · have hrec : validatePermList catalog roleId ps = .ok () := by
        by_cases hs : strStarts p "role:" = true
        · rw [if_pos hs, if_pos hc] at h; exact h
        · rw [if_neg hs, if_pos hc] at h; exact h
      rcases List.mem_cons.mp hq with rfl | hq2
      · exact hc
      · exact ih hrec q hq2
    · exfalso
      by_cases hs : strStarts p "role:" = true
      · rw [if_pos hs, if_neg hc] at h; exact Except.noConfusion h
      · rw [if_neg hs, if_neg hc] at h; exact Except.noConfusion h

theorem validatePermList_err (catalog : List String) (roleId : String) :
    ∀ (ps : List String) (e : String), validatePermList catalog roleId ps = .error e →
      ∃ p ∈ ps, p ∉ catalog ∧
        ((strStarts p "role:" = true ∧ e = invalidRoleRefMsg p roleId) ∨
         (strStarts p "role:" = false ∧ e = invalidPermissionMsg p roleId)) := by
  intro ps
  induction ps with
  | nil => intro e h; exact Except.noConfusion h
  | cons p ps ih =>
    intro e h
    rw [validatePermList_cons] at h
    by_cases hc : p ∈ catalog
    · have hrec : validatePermList catalog roleId ps = .error e := by
        by_cases hs : strStarts p "role:" = true
        · rw [if_pos hs, if_pos hc] at h; exact h
        · rw [if_neg hs, if_pos hc] at h; exact h
      obtain ⟨q, hq, hrest⟩ := ih e hrec
      exact ⟨q, List.mem_cons_of_mem p hq, hrest⟩
    · by_cases hs : strStarts p "role:" = true
      · rw [if_pos hs, if_neg hc] at h
        injection h with h2
        exact ⟨p, List.mem_cons_self p ps, hc, Or.inl ⟨hs, h2.symm⟩⟩
      · rw [if_neg hs, if_neg hc] at h
        injection h with h2
        exact ⟨p, List.mem_cons_self p ps, hc,
          Or.inr ⟨Bool.eq_false_iff.mpr hs, h2.symm⟩⟩

theorem validateInheritList_ok (catalog : List String) (roleId : String) :
    ∀ (ps : List String), validateInheritList catalog roleId ps = .ok () →
      ∀ par ∈ ps, ("role:" ++ par) ∈ catalog := by
  intro ps
  induction ps with
  | nil => intro _ p hp; exact absurd hp (List.not_mem_nil p)
  | cons p ps ih =>
    intro h q hq
    rw [validateInheritList_cons] at h
    by_cases hc : ("role:" ++ p) ∈ catalog
    · rw [if_pos hc] at h
      rcases List.mem_cons.mp hq with rfl | hq2
      · exact hc
      · exact ih h q hq2
    · rw [if_neg hc] at h; exact Except.noConfusion h

theorem validateInheritList_err (catalog : List String) (roleId : String) :
    ∀ (ps : List String) (e : String),
      validateInheritList catalog roleId ps = .error e →
      ∃ par ∈ ps, ("role:" ++ par) ∉ catalog ∧ e = inheritMsg roleId par := by
  intro ps
  induction ps with
  | nil => intro e h; exact Except.noConfusion h
  | cons p ps ih =>
    intro e h
    rw [validateInheritList_cons] at h
    by_cases hc : ("role:" ++ p) ∈ catalog
    · rw [if_pos hc] at h
      obtain ⟨q, hq, hrest⟩ := ih e h
      exact ⟨q, List.mem_cons_of_mem p hq, hrest⟩
    · rw [if_neg hc] at h
      injection h with h2
      exact ⟨p, List.mem_cons_self p ps, hc, h2.symm⟩

theorem validateRoles_ok (catalog : List String) :
    ∀ (roles : List (String × Role)), validateRoles catalog roles = .ok () →
      ∀ rid role, (rid, role) ∈ roles →
        (∀ p ∈ role.permissions, p ∈ catalog) ∧
        (∀ par ∈ role.inherits, ("role:" ++ par) ∈ catalog) := by
  intro roles
  induction roles with
  | nil => intro _ rid role h; exact absurd h (List.not_mem_nil (rid, role))
  | cons rr rest ih =>
    obtain ⟨rid0, role0⟩ := rr
    intro h rid role hmem
    rw [show validateRoles catalog ((rid0, role0) :: rest) =
        (match validatePermList catalog rid0 role0.permissions with
         | .error e => .error e
         | .ok () =>
           match validateInheritList catalog rid0 role0.inherits with
           | .error e => .error e
           | .ok () => validateRoles catalog rest) from rfl] at h
    cases hp : validatePermList catalog rid0 role0.permissions with
    | error e => rw [hp] at h; exact Except.noConfusion h
    | ok u =>
      cases u
      rw [hp] at h
      cases hi : validateInheritList catalog rid0 role0.inherits with
      | error e => rw [hi] at h; exact Except.noConfusion h
      | ok u2 =>
        cases u2
        rw [hi] at h
        rcases List.mem_cons.mp hmem with heq | hmem2
        · injection heq with he1 he2
          subst he1
          subst he2
          exact ⟨validatePermList_ok catalog rid _ hp,
            validateInheritList_ok catalog rid _ hi⟩
        · exact ih h rid role hmem2

theorem validateRoles_err (catalog : List String) :
    ∀ (roles : List (String × Role)) (e : String),
      validateRoles catalog roles = .error e →
      ∃ rid role, (rid, role) ∈ roles ∧
        ((∃ p ∈ role.permissions, p ∉ catalog ∧
            ((strStarts p "role:" = true ∧ e = invalidRoleRefMsg p rid) ∨
             (strStarts p "role:" = false ∧ e = invalidPermissionMsg p rid))) ∨
         (∃ par ∈ role.inherits, ("role:" ++ par) ∉ catalog ∧
            e = inheritMsg rid par)) := by
  intro roles
  induction roles with
  | nil => intro e h; exact Except.noConfusion h
  | cons rr rest ih =>
    obtain ⟨rid0, role0⟩ := rr
    intro e h
    rw [show validateRoles catalog ((rid0, role0) :: rest) =
        (match validatePermList catalog rid0 role0.permissions with
         | .error e => .error e
         | .ok () =>
           match validateInheritList catalog rid0 role0.inherits with
           | .error e => .error e
           | .ok () => validateRoles catalog rest) from rfl] at h
    cases hp : validatePermList catalog rid0 role0.permissions with
    | error e0 =>
      rw [hp] at h
      injection h with h2
      subst h2
      obtain ⟨p, hps, hpc, hcase⟩ := validatePermList_err catalog rid0 _ e0 hp
      exact ⟨rid0, role0, List.mem_cons_self _ _, Or.inl ⟨p, hps, hpc, hcase⟩⟩
    | ok u =>
      cases u
      rw [hp] at h
      cases hi : validateInheritList catalog rid0 role0.inherits with
      | error e0 =>
        rw [hi] at h
        injection h with h2
        subst h2
        obtain ⟨par, hps, hpc, hmsg⟩ := validateInheritList_err catalog rid0 _ e0 hi
        exact ⟨rid0, role0, List.mem_cons_self _ _, Or.inr ⟨par, hps, hpc, hmsg⟩⟩
      | ok u2 =>
        cases u2
        rw [hi] at h
        obtain ⟨rid, role, hmem, hcase⟩ := ih e h
        exact ⟨rid, role, List.mem_cons_of_mem _ hmem, hcase⟩

theorem validateRoles_err_of_violation (catalog : List String)
    (roles : List (String × Role))
    (hviol : ∃ rid role, (rid, role) ∈ roles ∧
      ((∃ p ∈ role.permissions, p ∉ catalog) ∨
       (∃ par ∈ role.inherits, ("role:" ++ par) ∉ catalog))) :
    ∃ e, validateRoles catalog roles = .error e := by
  cases h : validateRoles catalog roles with
  | error e => exact ⟨e, rfl⟩
  | ok u =>
    cases u
    exfalso
    obtain ⟨rid, role, hmem, hcase⟩ := hviol
    have hok := validateRoles_ok catalog roles h rid role hmem
    rcases hcase with ⟨p, hp, hpc⟩ | ⟨par, hp, hpc⟩
    · exact hpc (hok.1 p hp)
    · exact hpc (hok.2 par hp)

theorem bounded_empty (cat : List String) : GraphBounded cat ⟨[], []⟩ := by
  refine ⟨?_, ?_, ?_⟩
  · intro a b h; exact absurd h (by simp [phas, pgetD, pget])
  · intro b h; exact absurd h (by simp [pkey, pget])
  · intro a h; exact absurd h (by simp [pkey, pget])

theorem bounded_addGrant (cat : List String) (g : PermissionGraph) (c d : String)
    (hb : GraphBounded cat g) (hd : d ∈ cat) (hc : c ∈ cat ∨ c = "*:*") :
    GraphBounded cat (addGrant g c d) := by
  obtain ⟨h1, h2, h3⟩ := hb
  refine ⟨?_, ?_, ?_⟩
  · intro a b h
    rcases (phas_addGrant_grants g c d a b).mp h with h | ⟨rfl, rfl⟩
    · exact h1 a b h
    · exact hd
  · intro b h
    rcases (pkey_addGrant_grantedBy g c d b).mp h with rfl | h
    · exact hd
    · exact h2 b h
  · intro a h
    rcases (pkey_addGrant_grants g c d a).mp h with rfl | h
    · exact hc
    · exact h3 a h

theorem bounded_applyHierarchy (cat : List String)
    (hier : List (String × List String)) (actions : List String)
    (g : PermissionGraph) (scope : String) (hb : GraphBounded cat g)
    (h1 : ∀ a ∈ actions, (scope ++ ":" ++ a) ∈ cat)
    (h2 : (scope ++ ":*") ∈ cat ∨ (scope ++ ":*") = "*:*")
    (h3 : ∀ e ∈ hier, e.1 ∈ actions)
    (h4 : ∀ e ∈ hier, ∀ ia ∈ e.2, ia ∈ actions) :
    GraphBounded cat (applyHierarchy hier actions g scope) := by
  unfold applyHierarchy
  refine foldl_inv (GraphBounded cat) _ actions _ ?_ ?_
  · refine foldl_inv (GraphBounded cat) _ hier g hb ?_
    intro b e he hbb
    refine foldl_inv (GraphBounded cat) _ e.2 b hbb ?_
    intro b2 ia hia hb2
    exact bounded_addGrant cat b2 _ _ hb2 (h1 ia (h4 e he ia hia))
      (Or.inl (h1 e.1 (h3 e he)))
  · intro b a ha hbb
    exact bounded_addGrant cat b _ _ hbb (h1 a ha) h2

theorem bounded_addModuleEdges (cat : List String)
    (hier : List (String × List String)) (actions : List String)
    (g : PermissionGraph) (m : String × List String) (hb : GraphBounded cat g)
    (hms : (m.1 ++ ":*") ∈ cat)
    (hma : ∀ a ∈ actions, (m.1 ++ ":" ++ a) ∈ cat)
    (hrs : ∀ r ∈ m.2, (m.1 ++ "." ++ r ++ ":*") ∈ cat)
    (hra : ∀ r ∈ m.2, ∀ a ∈ actions, (m.1 ++ "." ++ r ++ ":" ++ a) ∈ cat)
    (h3 : ∀ e ∈ hier, e.1 ∈ actions)
    (h4 : ∀ e ∈ hier, ∀ ia ∈ e.2, ia ∈ actions) :
    GraphBounded cat (addModuleEdges hier actions g m) := by
  simp only [addModuleEdges]
  refine foldl_inv (GraphBounded cat) _ m.2 _ ?_ ?_
  · exact bounded_applyHierarchy cat hier actions g m.1 hb hma (Or.inl hms) h3 h4
  · intro b r hr hbb
    refine bounded_addGrant cat _ _ _ ?_ (hrs r hr) (Or.inl hms)
    refine foldl_inv (GraphBounded cat) _ actions _ ?_ ?_
    · exact bounded_applyHierarchy cat hier actions b (m.1 ++ "." ++ r) hbb
        (fun a ha => hra r hr a ha) (Or.inl (hrs r hr)) h3 h4
    · intro b2 a ha hb2
      exact bounded_addGrant cat b2 _ _ hb2 (hra r hr a ha) (Or.inl (hma a ha))

theorem bounded_addRoleEdges (cat : List String) (g : PermissionGraph)
    (rr : String × Role) (hb : GraphBounded cat g)
    (hrole : ("role:" ++ rr.1) ∈ cat)
    (hperm : ∀ p ∈ rr.2.permissions, p ∈ cat)
    (hinh : ∀ par ∈ rr.2.inherits, ("role:" ++ par) ∈ cat) :
    GraphBounded cat (addRoleEdges g rr) := by
  simp only [addRoleEdges]
  refine foldl_inv (GraphBounded cat) _ rr.2.inherits _ ?_ ?_
  · refine foldl_inv (GraphBounded cat) _ rr.2.permissions g hb ?_
    intro b2 p hp hb2
    exact bounded_addGrant cat b2 _ _ hb2 (hperm p hp) (Or.inl hrole)
  · intro b2 par hp hb2
    exact bounded_addGrant cat b2 _ _ hb2 (hinh par hp) (Or.inl hrole)

theorem effActions_eq (cfg : RBACConfig) :
    effActions cfg = (effHierarchy cfg).map Prod.fst := by
  unfold effActions effHierarchy
  cases cfg.hierarchy with
  | some h => rfl
  | none => rfl

theorem hier_key_mem_actions (cfg : RBACConfig) (e : String × List String)
    (he : e ∈ effHierarchy cfg) : e.1 ∈ effActions cfg := by
  rw [effActions_eq]
  exact List.mem_map_of_mem Prod.fst he

theorem graphOf_bounded (cfg : RBACConfig)
    (hv : validateRoles (catalogOf cfg) cfg.roles = .ok ())
    (hh : HierClosed cfg) :
    GraphBounded (catalogOf cfg) (graphOf cfg) := by
  have hstar1 : ∀ a ∈ effActions cfg, ("*" ++ ":" ++ a) ∈ catalogOf cfg := by
    intro a ha
    have he : ("*" ++ ":") = "*:" := rfl
    rw [he]
    exact mem_catalog_star (effActions cfg) cfg a ha
  have hglob : ∀ a ∈ effActions cfg, ("*:" ++ a) ∈ catalogOf cfg :=
    fun a ha => mem_catalog_star (effActions cfg) cfg a ha
  unfold graphOf
  simp only [buildPermissionGraph]
  refine foldl_inv (GraphBounded (catalogOf cfg)) addRoleEdges cfg.roles _ ?_ ?_
  · refine foldl_inv (GraphBounded (catalogOf cfg)) _ (effActions cfg) _ ?_ ?_
    · refine foldl_inv (GraphBounded (catalogOf cfg)) _ cfg.modules _ ?_ ?_
      · exact bounded_applyHierarchy (catalogOf cfg) _ _ _ "*"
          (bounded_empty (catalogOf cfg)) hstar1 (Or.inr rfl)
          (fun e he => hier_key_mem_actions cfg e he) hh
      · intro b m hm hbb
        exact bounded_addModuleEdges (catalogOf cfg) _ _ b m hbb
          (mem_catalog_module_star (effActions cfg) cfg m hm)
          (fun a ha => mem_catalog_module_action (effActions cfg) cfg m a hm ha)
          (fun r hr => mem_catalog_resource_star (effActions cfg) cfg m r hm hr)
          (fun r hr a ha =>
            mem_catalog_resource_action (effActions cfg) cfg m r a hm hr ha)
          (fun e he => hier_key_mem_actions cfg e he) hh
    · intro b a ha hbb
      refine foldl_inv (GraphBounded (catalogOf cfg)) _ cfg.modules b hbb ?_
      intro b2 m hm hb2
      exact bounded_addGrant (catalogOf cfg) b2 _ _ hb2
        (mem_catalog_module_action (effActions cfg) cfg m a hm ha)
        (Or.inl (hglob a ha))
  · intro b rr hrr hbb
    obtain ⟨rid0, role0⟩ := rr
    have hok := validateRoles_ok (catalogOf cfg) cfg.roles hv rid0 role0 hrr
    exact bounded_addRoleEdges (catalogOf cfg) b (rid0, role0) hbb
      (mem_catalog_role (effActions cfg) cfg rid0 role0 hrr) hok.1 hok.2

/-!  Query characterizations. -/

theorem hasPermission_iff (s : PermissionService) (ups : List String)
    (req : String) :
    hasPermission s ups req = true ↔
      ∃ up ∈ ups, (autoQualify s up = req ∨
        phas s.graph.grants (autoQualify s up) req) := by
  unfold hasPermission
  rw [List.any_eq_true]
  constructor
  · rintro ⟨up, hup, hcond⟩
    simp only [Bool.or_eq_true, beq_iff_eq, decide_eq_true_eq] at hcond
    exact ⟨up, hup, hcond⟩
  · rintro ⟨up, hup, hcond⟩
    refine ⟨up, hup, ?_⟩
    simp only [Bool.or_eq_true, beq_iff_eq, decide_eq_true_eq]
    exact hcond

theorem mem_getEffectivePermissions (s : PermissionService) (ups : List String)
    (x : String) :
    x ∈ getEffectivePermissions s ups ↔
      ∃ up ∈ ups, (x = up ∨ phas s.graph.grants up x) := by
  unfold getEffectivePermissions
  have haux : ∀ (l : List String) (acc : List String),
      x ∈ l.foldl
        (fun eff up => (pgetD s.graph.grants up).foldl addSet (addSet eff up)) acc ↔
      (x ∈ acc ∨ ∃ up ∈ l, (x = up ∨ phas s.graph.grants up x)) := by
    intro l
    induction l with
    | nil => intro acc; simp
    | cons up l ih =>
      intro acc
      show x ∈ l.foldl _ ((pgetD s.graph.grants up).foldl addSet (addSet acc up)) ↔ _
      rw [ih, mem_foldl_addSet_iff, mem_addSet_iff]
      simp only [List.mem_cons, phas]
      constructor
      · rintro (((hx | rfl) | hg) | ⟨up2, hup2, hc⟩)
        · exact Or.inl hx
        · exact Or.inr ⟨x, Or.inl rfl, Or.inl rfl⟩
        · exact Or.inr ⟨up, Or.inl rfl, Or.inr hg⟩
        · exact Or.inr ⟨up2, Or.inr hup2, hc⟩
      · rintro (hx | ⟨up2, (rfl | hup2), hc⟩)
        · exact Or.inl (Or.inl (Or.inl hx))
        · rcases hc with rfl | hg
          · exact Or.inl (Or.inl (Or.inr rfl))
          · exact Or.inl (Or.inr hg)
        · exact Or.inr ⟨up2, hup2, hc⟩
  rw [haux ups []]
  simp

theorem roleGet_mem :
    ∀ (roles : List (String × Role)) (p : String) (role : Role),
      roleGet roles p = some role → (p, role) ∈ roles := by
  intro roles
  induction roles with
  | nil => intro p role h; exact Option.noConfusion h
  | cons e rest ih =>
    obtain ⟨k, r⟩ := e
    intro p role h
    unfold roleGet at h
    by_cases hk : k = p
    · subst hk
      rw [if_pos rfl] at h
      injection h with h2
      subst h2
      exact List.mem_cons_self _ _
    · rw [if_neg hk] at h
      exact List.mem_cons_of_mem _ (ih p role h)

theorem autoQualify_of_none (s : PermissionService) (p : String)
    (h : roleGet s.config.roles p = none) : autoQualify s p = p := by
  unfold autoQualify
  rw [if_neg]
  rintro ⟨h1, -⟩
  rw [h] at h1
  exact Bool.noConfusion h1

theorem autoQualify_cases (s : PermissionService) (p : String) :
    autoQualify s p = p ∨
      (∃ role, roleGet s.config.roles p = some role ∧
        autoQualify s p = "role:" ++ p) := by
  unfold autoQualify
  by_cases h : (roleGet s.config.roles p).isSome = true ∧ strStarts p "role:" = false
  · rw [if_pos h]
    right
    obtain ⟨role, hr⟩ := Option.isSome_iff_exists.mp h.1
    exact ⟨role, hr, rfl⟩
  · rw [if_neg h]
    left
    rfl

/-!  Closed-set refutation helpers and concrete configurations. -/

theorem no_reach_of_closed (g : PermissionGraph) (S : List String) (i j : String)
    (h1 : ∀ y ∈ pgetD g.grants i, y ∈ S)
    (h2 : ∀ x ∈ S, ∀ y ∈ pgetD g.grants x, y ∈ S)
    (h3 : j ∉ S) : ¬ Reach g i j :=
  fun hr => h3 (reach_closed_set h2 hr h1)

theorem not_phas_fw (g : PermissionGraph) (nodes : List String) (S : List String)
    (i j : String) (h0 : ¬ phas g.grants i j)
    (h1 : ∀ y ∈ pgetD g.grants i, y ∈ S)
    (h2 : ∀ x ∈ S, ∀ y ∈ pgetD g.grants x, y ∈ S)
    (h3 : j ∉ S) : ¬ phas (applyFloydWarshall nodes g).grants i j := by
  intro h
  rcases (fw_char g nodes i j).mp h with hg | ⟨-, -, hvia⟩
  · exact h0 hg
  · exact no_reach_of_closed g S i j h1 h2 h3 hvia.toReach

theorem build_cfgTiny : build cfgTiny = .ok sTiny := by decide

theorem build_cfgTwo : build cfgTwo = .ok sTwo := by decide

theorem validate_cfgC6 : validateRoles (catalogOf cfgC6) cfgC6.roles = .ok () := rfl

theorem detect_cfgC6 :
    detectCircularDependencies (graphOf cfgC6) (catalogOf cfgC6) = .ok () := by decide

theorem build_cfgC6 : build cfgC6 = .ok s6 := by
  unfold build
  rw [validate_cfgC6, detect_cfgC6]
  rfl

theorem hasPermissionOfBuild_cfgC6 (ups : List String) (req : String) :
    hasPermissionOfBuild cfgC6 ups req = hasPermission s6 ups req := by
  unfold hasPermissionOfBuild
  rw [build_cfgC6]

/-!  The claims. -/

/-- C1: `hasPermission(held, required)` returns true iff some held string,
auto-qualified to `role:id` when it is a bare id of a declared role not
already `role:`-prefixed, either equals `required` or has `required` in its
forward-index grants set; qualification precedes both checks. -/
theorem claim_C1 (s : PermissionService) (held : List String) (required : String) :
    hasPermission s held required = true ↔
      ∃ up ∈ held, (autoQualify s up = required ∨
        required ∈ whatDoesPermissionGrant s (autoQualify s up)) :=
  hasPermission_iff s held required

/-- C2 (amended): after a successful construction, `whatGrants` is transitive
on catalog members: for `p`, `q`, `r` all in the catalog, `q ∈ whatGrants(p)`
and `r ∈ whatGrants(q)` imply `r ∈ whatGrants(p)`.  (The unrestricted claim
fails at the builder-created non-catalog node `*:*`.) -/
theorem claim_C2 (cfg : RBACConfig) (s : PermissionService) (h : build cfg = .ok s)
    (p q r : String) (hp : p ∈ s.allPermissions) (hq : q ∈ s.allPermissions)
    (hr : r ∈ s.allPermissions)
    (h1 : q ∈ whatDoesPermissionGrant s p) (h2 : r ∈ whatDoesPermissionGrant s q) :
    r ∈ whatDoesPermissionGrant s p := by
  obtain ⟨-, -, rfl⟩ := build_ok_elim cfg s h
  have hviapq : ReachVia (graphOf cfg) (· ∈ catalogOf cfg) p q := by
    rcases (fw_char (graphOf cfg) (catalogOf cfg) p q).mp h1 with hg | ⟨-, -, hg⟩
    · exact ReachVia.single hg
    · exact hg
  have hviaqr : ReachVia (graphOf cfg) (· ∈ catalogOf cfg) q r := by
    rcases (fw_char (graphOf cfg) (catalogOf cfg) q r).mp h2 with hg | ⟨-, -, hg⟩
    · exact ReachVia.single hg
    · exact hg
  exact (fw_char (graphOf cfg) (catalogOf cfg) p r).mpr
    (Or.inr ⟨hp, hr, ReachVia.comp hq hviapq hviaqr⟩)

/-- C2 counterexample: in the service built from `cfgTiny`, the builder-created
node `*:*` grants `*:read`, and `*:read` grants `u:read`, yet `u:read` is not
in `whatGrants(*:*)` — transitivity fails as originally stated. -/
theorem claim_C2_counterexample :
    "*:read" ∈ whatDoesPermissionGrant sTiny "*:*" ∧
    "u:read" ∈ whatDoesPermissionGrant sTiny "*:read" ∧
    "u:read" ∉ whatDoesPermissionGrant sTiny "*:*" := by decide

theorem claim_C2_witness :
    "u:read" ∈ whatDoesPermissionGrant sTwo "*:update" :=
  claim_C2 cfgTwo sTwo build_cfgTwo "*:update" "*:read" "u:read"
    (by decide) (by decide) (by decide) (by decide) (by decide)

/-- C3 (amended): for any configuration in which declared roles A and B
mutually inherit each other and role validation succeeds, construction fails
with the circular-dependency error, whose named node really lies on a cycle
of the direct graph; no instance is produced.  (Without the validation
hypothesis the claim fails: an unrelated invalid permission makes
construction fail with a different, validation error first.) -/
theorem claim_C3 (cfg : RBACConfig) (ridA ridB : String) (roleA roleB : Role)
    (hA : (ridA, roleA) ∈ cfg.roles) (hB : (ridB, roleB) ∈ cfg.roles)
    (hAB : ridB ∈ roleA.inherits) (hBA : ridA ∈ roleB.inherits)
    (hv : validateRoles (catalogOf cfg) cfg.roles = .ok ()) :
    ∃ n, build cfg = .error (circularMsg n) ∧ Reach (graphOf cfg) n n := by
  have hedge1 := graphOf_role_inherit cfg ridA roleA ridB hA hAB
  have hedge2 := graphOf_role_inherit cfg ridB roleB ridA hB hBA
  have hcyc : Reach (graphOf cfg) ("role:" ++ ridA) ("role:" ++ ridA) :=
    Reach.head hedge1 (Reach.single hedge2)
  have hmem : ("role:" ++ ridA) ∈ catalogOf cfg :=
    mem_catalog_role (effActions cfg) cfg ridA roleA hA
  obtain ⟨m, hdm, hmm⟩ :=
    detect_err_of_cycle (graphOf cfg) (catalogOf cfg) _ hmem hcyc
  exact ⟨m, build_error_of_detect cfg _ hv hdm, hmm⟩

/-- C3 counterexample: with mutually inheriting declared roles A and B but an
unknown permission in role B, construction fails with the invalid-permission
error, not a circular-dependency error. -/
theorem claim_C3_counterexample :
    build cfgC3bad = .error (invalidPermissionMsg "nope" "B") ∧
    strStarts (invalidPermissionMsg "nope" "B") "Circular" = false := by
  exact ⟨by decide, by decide⟩

theorem claim_C3_witness :
    ∃ n, build cfgC3 = .error (circularMsg n) ∧ Reach (graphOf cfgC3) n n :=
  claim_C3 cfgC3 "A" "B" roleAok roleBok (by decide) (by decide)
    (by decide) (by decide) (by decide)

/-- C4 (amended): whenever some declared role grants a string outside the
catalog or inherits a parent whose `role:` node is outside the catalog,
validation fails, construction fails with that same error before any closure
work, and the single reported message names a genuine defect of the matching
kind — `role:`-shaped grants are checked against catalog membership (not
against declared roles), and with several defects only the first in
declaration order is reported. -/
theorem claim_C4 (cfg : RBACConfig) (h : HasViolation cfg) :
    ∃ e, validateRoles (catalogOf cfg) cfg.roles = .error e ∧
      build cfg = .error e ∧ DescribesViolation cfg e := by
  obtain ⟨rr, hmem, hcase⟩ := h
  obtain ⟨e, he⟩ := validateRoles_err_of_violation (catalogOf cfg) cfg.roles
    ⟨rr.1, rr.2, hmem, hcase⟩
  obtain ⟨rid, role, hmem2, hcase2⟩ := validateRoles_err (catalogOf cfg) cfg.roles e he
  exact ⟨e, he, build_error_of_validate cfg e he, (rid, role), hmem2, hcase2⟩

/-- C4 counterexample: with a module literally named `role`, a role grants the
`role:`-shaped string `role:read` whose id names no declared role, yet
construction succeeds — the validator accepts any catalog member of that
shape, contradicting the claim that such a configuration must fail with an
unknown-role-reference error. -/
theorem claim_C4_counterexample :
    isOkB (build cfgC4ce) = true ∧
    strStarts "role:read" "role:" = true ∧
    roleGet cfgC4ce.roles "read" = none ∧
    "role:read" ∈ roleMy.permissions := by
  exact ⟨by decide, by decide, by decide, by decide⟩

theorem claim_C4_witness :
    ∃ e, validateRoles (catalogOf cfgC3bad) cfgC3bad.roles = .error e ∧
      build cfgC3bad = .error e ∧ DescribesViolation cfgC3bad e :=
  claim_C4 cfgC3bad ⟨("B", roleBbad), by decide, Or.inl ⟨"nope", by decide, by decide⟩⟩

/-- C5 (amended): once construction succeeds (for a hierarchy whose implied
actions are declared actions), a string `r` outside the catalog yields
`hasPermission held r = false` provided `r` is not itself an element of
`held`, `whoGrants r = ∅` unconditionally, and `whatGrants r = ∅` provided
`r ≠ "*:*"` (the builder creates that one non-catalog forward key).  Query
operations are total functions in this embedding, matching the throw-free
query code. -/
theorem claim_C5 (cfg : RBACConfig) (s : PermissionService) (h : build cfg = .ok s)
    (hh : HierClosed cfg) (r : String) (hr : r ∉ s.allPermissions) :
    (∀ held : List String, r ∉ held → hasPermission s held r = false) ∧
    whoGrantsPermission s r = [] ∧
    (r ≠ "*:*" → whatDoesPermissionGrant s r = []) := by
  obtain ⟨hv, -, rfl⟩ := build_ok_elim cfg s h
  obtain ⟨hgrantee, hgbkeys, hgkeys⟩ := graphOf_bounded cfg hv hh
  have hrc : r ∉ catalogOf cfg := hr
  have hfinal : ∀ a, ¬ phas (applyFloydWarshall (catalogOf cfg) (graphOf cfg)).grants a r := by
    intro a hph
    rcases (fw_char (graphOf cfg) (catalogOf cfg) a r).mp hph with h0 | ⟨-, hrm, -⟩
    · exact hrc (hgrantee a r h0)
    · exact hrc hrm
  refine ⟨?_, ?_, ?_⟩
  · intro held hheld
    rw [Bool.eq_false_iff]
    intro htrue
    rw [hasPermission_iff] at htrue
    obtain ⟨up, hup, hcase⟩ := htrue
    rcases hcase with heq | hph
    · rcases autoQualify_cases _ up with hid | ⟨role, hrg, hqual⟩
      · rw [hid] at heq
        exact hheld (heq ▸ hup)
      · rw [hqual] at heq
        have : ("role:" ++ up) ∈ catalogOf cfg :=
          mem_catalog_role (effActions cfg) cfg up role (roleGet_mem _ up role hrg)
        exact hrc (heq ▸ this)
    · exact hfinal _ hph
  · simp only [whoGrantsPermission]
    rw [if_neg hr]
    apply pgetD_eq_nil_of_not_pkey
    intro hk
    exact hrc (hgbkeys r ((pkey_fwK_grantedBy (catalogOf cfg) (catalogOf cfg) _ r).mp hk))
  · intro hne
    apply pgetD_eq_nil_of_not_pkey
    intro hk
    rcases hgkeys r ((pkey_fwK_grants (catalogOf cfg) (catalogOf cfg) _ r).mp hk) with hin | hstar
    · exact hrc hin
    · exact hne hstar

/-- C5 counterexample: a non-catalog string held verbatim makes
`hasPermission` return true by the equality check, and the non-catalog
builder node `*:*` has a nonempty `whatGrants` — so the original claim's
`false` / empty-result guarantees fail. -/
theorem claim_C5_counterexample :
    hasPermission sTiny ["junk"] "junk" = true ∧
    "junk" ∉ sTiny.allPermissions ∧
    whatDoesPermissionGrant sTiny "*:*" ≠ [] ∧
    "*:*" ∉ sTiny.allPermissions := by
  exact ⟨by decide, by decide, by decide, by decide⟩

theorem claim_C5_witness :
    hasPermission sTiny ["u:read"] "zzz" = false ∧
    whoGrantsPermission sTiny "zzz" = [] ∧
    whatDoesPermissionGrant sTiny "zzz" = [] := by
  have h := claim_C5 cfgTiny sTiny build_cfgTiny (by decide) "zzz" (by decide)
  exact ⟨h.1 ["u:read"] (by decide), h.2.1, h.2.2 (by decide)⟩

/-- C6: on the spec's worked example (modules users/posts with two resources
each, default hierarchy, no roles) the five pinned `hasPermission` results
hold. -/
theorem claim_C6 :
    hasPermissionOfBuild cfgC6 ["users:update"] "users:read" = true ∧
    hasPermissionOfBuild cfgC6 ["users:create"] "users:update" = false ∧
    hasPermissionOfBuild cfgC6 ["users:read"] "posts:read" = false ∧
    hasPermissionOfBuild cfgC6 ["*:delete"] "posts:delete" = true ∧
    hasPermissionOfBuild cfgC6 ["users:read"] "users.profile:read" = true := by
  have hpos : ∀ up req : String, phas (graphOf cfgC6).grants up req →
      hasPermissionOfBuild cfgC6 [up] req = true := by
    intro up req hedge
    rw [hasPermissionOfBuild_cfgC6, hasPermission_iff]
    refine ⟨up, List.mem_cons_self _ _, ?_⟩
    rw [autoQualify_of_none s6 up rfl]
    exact Or.inr (phas_fwK_mono (catalogOf cfgC6) (catalogOf cfgC6) (graphOf cfgC6) hedge)
  have hneg : ∀ (up req : String) (S : List String), up ≠ req →
      ¬ phas (graphOf cfgC6).grants up req →
      (∀ y ∈ pgetD (graphOf cfgC6).grants up, y ∈ S) →
      (∀ x ∈ S, ∀ y ∈ pgetD (graphOf cfgC6).grants x, y ∈ S) →
      req ∉ S →
      hasPermissionOfBuild cfgC6 [up] req = false := by
    intro up req S hne h0 h1 h2 h3
    rw [hasPermissionOfBuild_cfgC6, Bool.eq_false_iff]
    intro htrue
    rw [hasPermission_iff] at htrue
    obtain ⟨up2, hup2, hcase⟩ := htrue
    have hupe : up2 = up := by
      rcases List.mem_cons.mp hup2 with he | he
      · exact he
      · exact absurd he (List.not_mem_nil up2)
    subst hupe
    rw [autoQualify_of_none s6 up2 rfl] at hcase
    rcases hcase with heq | hph
    · exact hne heq
    · exact not_phas_fw (graphOf cfgC6) (catalogOf cfgC6) S up2 req h0 h1 h2 h3 hph
  refine ⟨hpos _ _ (by decide), ?_, ?_, hpos _ _ (by decide), hpos _ _ (by decide)⟩
  · exact hneg "users:create" "users:update"
      ["users:read", "users.profile:create", "users.settings:create",
       "users.profile:read", "users.settings:read"]
      (by decide) (by decide) (by decide) (by decide) (by decide)
  · exact hneg "users:read" "posts:read"
      ["users.profile:read", "users.settings:read"]
      (by decide) (by decide) (by decide) (by decide) (by decide)

/-- C7: after a successful construction, the direct graph produced by the
builder stage and the closed graph of the instance are both mirrored: for
every pair, `b ∈ grants[a]` iff `a ∈ grantedBy[b]`. -/
theorem claim_C7 (cfg : RBACConfig) (s : PermissionService) (h : build cfg = .ok s) :
    Mirror (graphOf cfg) ∧ Mirror s.graph := by
  obtain ⟨-, -, rfl⟩ := build_ok_elim cfg s h
  exact ⟨mirror_buildPermissionGraph (effActions cfg) (effHierarchy cfg) cfg,
    mirror_fw (catalogOf cfg) (graphOf cfg)
      (mirror_buildPermissionGraph (effActions cfg) (effHierarchy cfg) cfg)⟩

theorem claim_C7_witness : Mirror (graphOf cfgTiny) ∧ Mirror sTiny.graph :=
  claim_C7 cfgTiny sTiny build_cfgTiny

/-- C8: the transitive-closure pass is idempotent on the graph of a
successfully built instance: re-running it over the same catalog snapshot
returns the graph unchanged, both indices included, as data. -/
theorem claim_C8 (cfg : RBACConfig) (s : PermissionService) (h : build cfg = .ok s) :
    applyFloydWarshall s.allPermissions s.graph = s.graph := by
  obtain ⟨-, -, rfl⟩ := build_ok_elim cfg s h
  exact fw_idem (catalogOf cfg) (graphOf cfg)
    (mirror_buildPermissionGraph (effActions cfg) (effHierarchy cfg) cfg)

theorem claim_C8_witness :
    applyFloydWarshall sTiny.allPermissions sTiny.graph = sTiny.graph :=
  claim_C8 cfgTiny sTiny build_cfgTiny

/-- C9: for every catalog member `p` of a built instance, `whoGrants(p)`
contains `p` itself in addition to every permission recorded in the reverse
index for `p`. -/
theorem claim_C9 (cfg : RBACConfig) (s : PermissionService) (_h : build cfg = .ok s)
    (p : String) (hp : p ∈ s.allPermissions) :
    p ∈ whoGrantsPermission s p ∧
      ∀ q ∈ pgetD s.graph.grantedBy p, q ∈ whoGrantsPermission s p := by
  constructor
  · simp only [whoGrantsPermission]
    rw [if_pos hp]
    exact List.mem_insert_self p _
  · intro q hq
    simp only [whoGrantsPermission]
    rw [if_pos hp]
    exact List.mem_insert_of_mem hq

theorem claim_C9_witness :
    "u:read" ∈ whoGrantsPermission sTiny "u:read" ∧
    "u:*" ∈ whoGrantsPermission sTiny "u:read" :=
  ⟨(claim_C9 cfgTiny sTiny build_cfgTiny "u:read" (by decide)).1,
   (claim_C9 cfgTiny sTiny build_cfgTiny "u:read" (by decide)).2 "u:*" (by decide)⟩

/-- C10: on a built instance, when no held string is a bare id of a declared
role, `hasPermission held r` is true exactly when `r` is among the effective
permissions of `held`; moreover the effective set always contains every held
string itself, catalog member or not. -/
theorem claim_C10 (cfg : RBACConfig) (s : PermissionService) (_h : build cfg = .ok s)
    (held : List String)
    (hbare : ∀ p ∈ held, ¬((roleGet s.config.roles p).isSome = true ∧
      strStarts p "role:" = false)) (r : String) :
    (hasPermission s held r = true ↔ r ∈ getEffectivePermissions s held) ∧
    (∀ p ∈ held, p ∈ getEffectivePermissions s held) := by
  have hq : ∀ p ∈ held, autoQualify s p = p := by
    intro p hp
    unfold autoQualify
    rw [if_neg (hbare p hp)]
  constructor
  · rw [hasPermission_iff, mem_getEffectivePermissions]
    constructor
    · rintro ⟨up, hup, hcase⟩
      rw [hq up hup] at hcase
      refine ⟨up, hup, ?_⟩
      rcases hcase with h1 | h2
      · exact Or.inl h1.symm
      · exact Or.inr h2
    · rintro ⟨up, hup, hcase⟩
      refine ⟨up, hup, ?_⟩
      rw [hq up hup]
      rcases hcase with h1 | h2
      · exact Or.inl h1.symm
      · exact Or.inr h2
  · intro p hp
    rw [mem_getEffectivePermissions]
    exact ⟨p, hp, Or.inl rfl⟩

theorem claim_C10_witness :
    (hasPermission sTiny ["u:*"] "u:read" = true ↔
      "u:read" ∈ getEffectivePermissions sTiny ["u:*"]) ∧
    "u:*" ∈ getEffectivePermissions sTiny ["u:*"] :=
  ⟨(claim_C10 cfgTiny sTiny build_cfgTiny ["u:*"] (by decide) "u:read").1,
   (claim_C10 cfgTiny sTiny build_cfgTiny ["u:*"] (by decide) "u:read").2 "u:*"
     (by decide)⟩
